import Mathlib

/-!
Shallow embedding of the vietnamese-law-mcp corpus build and query layer:
`scripts/build-db.ts` (dedupeProvisions, extractEuReferences, build loop),
`scripts/lib/parser.ts` (parseVietnameseHtml main loop),
`src/utils/statute-id.ts` (resolveDocumentId),
`src/utils/fts-query.ts` (sanitizeFtsInput, buildFtsQueryVariants),
`src/tools/validate-citation.ts` (parseCitation, validateCitationTool),
`src/tools/build-legal-stance.ts` (buildLegalStance).

Text is modelled as `List Char`.  JavaScript string positions are UTF-16
code units; every character appearing in the modelled code paths is in the
basic multilingual plane, so code-unit indices coincide with character
indices and `List Char` positions.
-/

namespace VietLaw

/-- Convert a Lean string literal to the `List Char` text model. -/
def str (s : String) : List Char :=
  s.data

/-- Characters matched by the JavaScript regex class `\s`, which is also the
set removed by `String.prototype.trim`. -/
def isWS (c : Char) : Bool :=
  c == ' ' || c == '\t' || c == '\n' || c.toNat == 11 || c.toNat == 12 ||
  c.toNat == 13 || c.toNat == 160 || c.toNat == 0x1680 ||
  (decide (0x2000 ≤ c.toNat) && decide (c.toNat ≤ 0x200a)) ||
  c.toNat == 0x2028 || c.toNat == 0x2029 || c.toNat == 0x202f ||
  c.toNat == 0x205f || c.toNat == 0x3000 || c.toNat == 0xfeff

/-- JavaScript `String.prototype.trim`: drop leading and trailing `\s`. -/
def trimList (l : List Char) : List Char :=
  ((l.dropWhile isWS).reverse.dropWhile isWS).reverse

/-- One pass of `replace(/\s+/g, ' ')`: each maximal run of whitespace
becomes a single space.  The boolean flag records whether the previously
consumed character was whitespace (i.e. whether we are inside a run). -/
def collapseAux : Bool → List Char → List Char
  | _, [] => []
  | prevWS, c :: rest =>
    if isWS c then
      if prevWS then collapseAux true rest else ' ' :: collapseAux true rest
    else
      c :: collapseAux false rest

/-- JavaScript `text.replace(/\s+/g, ' ')`. -/
def collapseRuns (l : List Char) : List Char :=
  collapseAux false l

/-- `normalizeWhitespace` from `scripts/build-db.ts`:
`text.replace(/\s+/g, ' ').trim()`. -/
def normalizeWhitespace (l : List Char) : List Char :=
  trimList (collapseRuns l)

/-- Seed provision record (`ProvisionSeed` in `scripts/build-db.ts`). -/
structure ProvisionSeed where
  provision_ref : List Char
  chapter : Option (List Char) := none
  sectionLabel : List Char := []
  title : Option (List Char) := none
  content : List Char := []
  deriving DecidableEq, Repr

/-- Lookup in an insertion-ordered association list (JS `Map.get`). -/
def lookupA (m : List (List Char × ProvisionSeed)) (k : List Char) :
    Option ProvisionSeed :=
  match m with
  | [] => none
  | (k', v) :: rest => if k' = k then some v else lookupA rest k

/-- JS `Map.set`: overwrite in place if the key is present (keeping its
original insertion position), otherwise append at the end. -/
def mapSet (m : List (List Char × ProvisionSeed)) (k : List Char)
    (v : ProvisionSeed) : List (List Char × ProvisionSeed) :=
  match m with
  | [] => [(k, v)]
  | (k', v') :: rest =>
    if k' = k then (k, v) :: rest else (k', v') :: mapSet rest k v

/-- The loop body of `dedupeProvisions` (`scripts/build-db.ts`, lines
238-248) iterated over the seed list, threading the `byRef` map. -/
def dedupeLoop (m : List (List Char × ProvisionSeed)) :
    List ProvisionSeed → List (List Char × ProvisionSeed)
  | [] => m
  | p :: rest =>
    let ref := trimList p.provision_ref
    let m' :=
      match lookupA m ref with
      | none => mapSet m ref { p with provision_ref := ref }
      | some existing =>
        if (normalizeWhitespace p.content).length >
            (normalizeWhitespace existing.content).length then
          mapSet m ref { p with provision_ref := ref }
        else m
    dedupeLoop m' rest

/-- `dedupeProvisions` from `scripts/build-db.ts`: dedupe seed provisions by
trimmed `provision_ref`, keeping the candidate with the longest
whitespace-normalised content (the earlier one on ties), and returning the
surviving records in key insertion order (JS `Map.values()`). -/
def dedupeProvisions (ps : List ProvisionSeed) : List ProvisionSeed :=
  (dedupeLoop [] ps).map (·.2)

/-- The `(document_id, provision_ref)` pairs inserted into
`legal_provisions` by the build loop of `buildDatabase`
(`scripts/build-db.ts`, lines 387-396): per seed document, the deduped
provisions are inserted with that document's id. -/
def buildProvisionPairs (docs : List (List Char × List ProvisionSeed)) :
    List (List Char × List Char) :=
  docs.flatMap fun d => (dedupeProvisions d.2).map fun p => (d.1, p.provision_ref)

/-! ### Trim idempotence -/

theorem dropWhile_head?_not (p : Char → Bool) (l : List Char) :
    ∀ c, (l.dropWhile p).head? = some c → p c = false := by
  induction l with
  | nil => intro c h; simp [List.dropWhile] at h
  | cons a as ih =>
    intro c h
    by_cases hp : p a
    · rw [List.dropWhile_cons_of_pos hp] at h; exact ih c h
    · rw [List.dropWhile_cons_of_neg hp] at h
      simp at h
      rw [← h]
      exact Bool.eq_false_iff.mpr hp

theorem dropWhile_eq_self_of_head (p : Char → Bool) (l : List Char)
    (h : ∀ c, l.head? = some c → p c = false) : l.dropWhile p = l := by
  cases l with
  | nil => rfl
  | cons a as =>
    have : p a = false := h a rfl
    simp [List.dropWhile, this]

theorem dropWhile_idem (p : Char → Bool) (l : List Char) :
    (l.dropWhile p).dropWhile p = l.dropWhile p :=
  dropWhile_eq_self_of_head p _ (dropWhile_head?_not p l)

/-- `dropWhile` yields a suffix: there is a dropped-off front part. -/
theorem dropWhile_exists_front (p : Char → Bool) (l : List Char) :
    ∃ u, u ++ l.dropWhile p = l := by
  induction l with
  | nil => exact ⟨[], rfl⟩
  | cons a as ih =>
    by_cases hp : p a
    · obtain ⟨u, hu⟩ := ih
      exact ⟨a :: u, by simp [List.dropWhile_cons_of_pos hp, hu]⟩
    · exact ⟨[], by simp [List.dropWhile_cons_of_neg hp]⟩

/-- The head of the back-trimmed list is the head of the original list
whenever the back-trimmed list is nonempty. -/
theorem backTrim_head? (p : Char → Bool) (l : List Char) (c : Char)
    (h : ((l.reverse.dropWhile p).reverse).head? = some c) :
    l.head? = some c := by
  obtain ⟨u, hu⟩ := dropWhile_exists_front p l.reverse
  have hl : l = (l.reverse.dropWhile p).reverse ++ u.reverse := by
    have := congrArg List.reverse hu
    simpa [List.reverse_append] using this.symm
  rw [hl]
  cases hrev : (l.reverse.dropWhile p).reverse with
  | nil => rw [hrev] at h; simp at h
  | cons b bs =>
    rw [hrev] at h
    simp at h
    simp [hrev, h]

theorem trimList_idem (l : List Char) : trimList (trimList l) = trimList l := by
  unfold trimList
  have h1 : ∀ c, (((l.dropWhile isWS).reverse.dropWhile isWS).reverse).head? =
      some c → isWS c = false := by
    intro c hc
    exact dropWhile_head?_not isWS l c (backTrim_head? isWS (l.dropWhile isWS) c hc)
  rw [dropWhile_eq_self_of_head isWS _ h1]
  rw [List.reverse_reverse, dropWhile_idem]

/-! ### C1: dedupe keys are pairwise distinct -/

theorem lookupA_none_iff (m : List (List Char × ProvisionSeed)) (k : List Char) :
    lookupA m k = none ↔ ∀ e ∈ m, e.1 ≠ k := by
  induction m with
  | nil =>
    constructor
    · intro _ e he; exact absurd he (List.not_mem_nil e)
    · intro _; rfl
  | cons a as ih =>
    rw [lookupA]
    by_cases h : a.1 = k
    · rw [if_pos h]
      constructor
      · intro hc; exact absurd hc (by simp)
      · intro hall; exact absurd h (hall a (List.mem_cons_self a as))
    · rw [if_neg h, ih]
      constructor
      · intro hall e he
        rcases List.mem_cons.mp he with he | he
        · rw [he]; exact h
        · exact hall e he
      · intro hall e he
        exact hall e (List.mem_cons_of_mem a he)

theorem mapSet_keys_of_absent (m : List (List Char × ProvisionSeed))
    (k : List Char) (v : ProvisionSeed) (h : lookupA m k = none) :
    (mapSet m k v).map (·.1) = m.map (·.1) ++ [k] := by
  induction m with
  | nil => simp [mapSet]
  | cons a as ih =>
    have h1 : a.1 ≠ k := (lookupA_none_iff _ _).mp h a (List.mem_cons_self a as)
    have h2 : lookupA as k = none := by
      rw [lookupA_none_iff]
      intro e he
      exact (lookupA_none_iff _ _).mp h e (List.mem_cons_of_mem a he)
    simp [mapSet, h1, ih h2]

theorem mapSet_keys_of_present (m : List (List Char × ProvisionSeed))
    (k : List Char) (v w : ProvisionSeed) (h : lookupA m k = some w) :
    (mapSet m k v).map (·.1) = m.map (·.1) := by
  induction m with
  | nil => simp [lookupA] at h
  | cons a as ih =>
    by_cases h1 : a.1 = k
    · obtain ⟨ka, va⟩ := a
      simp at h1
      subst h1
      simp [mapSet]
    · rw [lookupA] at h
      simp [h1] at h
      simp [mapSet, h1, ih h]

theorem mem_mapSet (m : List (List Char × ProvisionSeed)) (k : List Char)
    (v : ProvisionSeed) (e : List Char × ProvisionSeed)
    (he : e ∈ mapSet m k v) : e ∈ m ∨ e = (k, v) := by
  induction m with
  | nil => simp [mapSet] at he; simp [he]
  | cons a as ih =>
    by_cases h1 : a.1 = k
    · obtain ⟨ka, va⟩ := a
      simp at h1
      subst h1
      rw [mapSet] at he
      simp at he
      rcases he with he | he
      · right; simp [he]
      · left; exact List.mem_cons_of_mem _ he
    · rw [mapSet] at he
      simp [h1] at he
      rcases he with he | he
      · left; simp [he]
      · rcases ih he with h | h
        · left; exact List.mem_cons_of_mem _ h
        · right; exact h

/-- Every value stored by `dedupeLoop` carries its own key as its
(trimmed) `provision_ref`, and the keys stay pairwise distinct. -/
theorem dedupeLoop_invariant (ps : List ProvisionSeed) :
    ∀ m, ((m.map (·.1)).Nodup ∧ ∀ e ∈ m, e.2.provision_ref = e.1) →
      (((dedupeLoop m ps).map (·.1)).Nodup ∧
        ∀ e ∈ dedupeLoop m ps, e.2.provision_ref = e.1) := by
  induction ps with
  | nil => intro m h; exact h
  | cons p rest ih =>
    intro m h
    rw [dedupeLoop]
    apply ih
    cases hl : lookupA m (trimList p.provision_ref) with
    | none =>
      constructor
      · rw [mapSet_keys_of_absent m _ _ hl]
        rw [List.nodup_append]
        refine ⟨h.1, List.nodup_singleton _, ?_⟩
        intro a ha hb
        simp at hb
        subst hb
        obtain ⟨e, he, he1⟩ := List.mem_map.mp ha
        exact (lookupA_none_iff _ _).mp hl e he he1
      · intro e he
        rcases mem_mapSet _ _ _ _ he with hm | hm
        · exact h.2 e hm
        · simp [hm]
    | some existing =>
      by_cases hlen : (normalizeWhitespace p.content).length >
          (normalizeWhitespace existing.content).length
      · simp only [hlen, if_true]
        constructor
        · rw [mapSet_keys_of_present m _ _ existing hl]
          exact h.1
        · intro e he
          rcases mem_mapSet _ _ _ _ he with hm | hm
          · exact h.2 e hm
          · simp [hm]
      · simp only [hlen, if_false]
        exact h

/-- Every key in the `dedupeLoop` map is the image of `trimList`. -/
theorem dedupeLoop_keys_trimmed (ps : List ProvisionSeed) :
    ∀ m, (∀ e ∈ m, ∃ x, trimList x = e.1) →
      ∀ e ∈ dedupeLoop m ps, ∃ x, trimList x = e.1 := by
  induction ps with
  | nil => intro m hm e he; exact hm e he
  | cons p rest ih =>
    intro m hm e he
    rw [dedupeLoop] at he
    revert he
    cases hl : lookupA m (trimList p.provision_ref) with
    | none =>
      intro he
      refine ih _ ?_ e he
      intro e' he'
      rcases mem_mapSet _ _ _ _ he' with h' | h'
      · exact hm e' h'
      · exact ⟨p.provision_ref, by rw [h']⟩
    | some existing =>
      by_cases hlen : (normalizeWhitespace p.content).length >
          (normalizeWhitespace existing.content).length
      · simp only [hlen, if_true]
        intro he
        refine ih _ ?_ e he
        intro e' he'
        rcases mem_mapSet _ _ _ _ he' with h' | h'
        · exact hm e' h'
        · exact ⟨p.provision_ref, by rw [h']⟩
      · simp only [hlen, if_false]
        intro he
        exact ih _ hm e he

/-- Helper form of the dedupe key distinctness: the refs of
`dedupeProvisions` output are pairwise distinct and already trimmed. -/
theorem dedupeProvisions_refs_nodup (ps : List ProvisionSeed) :
    ((dedupeProvisions ps).map (·.provision_ref)).Nodup ∧
      ∀ p ∈ dedupeProvisions ps, trimList p.provision_ref = p.provision_ref := by
  obtain ⟨hnd, hval⟩ := dedupeLoop_invariant ps [] ⟨List.nodup_nil, by simp⟩
  constructor
  · have heq : (dedupeProvisions ps).map (·.provision_ref) =
        (dedupeLoop [] ps).map (·.1) := by
      unfold dedupeProvisions
      rw [List.map_map]
      apply List.map_congr_left
      intro e he
      exact hval e he
    rw [heq]
    exact hnd
  · intro p hp
    unfold dedupeProvisions at hp
    obtain ⟨e, he, hep⟩ := List.mem_map.mp hp
    have hkey := hval e he
    obtain ⟨x, hx⟩ := dedupeLoop_keys_trimmed ps [] (by simp) e he
    rw [← hep, hkey, ← hx, trimList_idem]

/-- Claim C1: after `dedupeProvisions` is applied to any seed provision
list, no two returned provisions share the same trimmed `provision_ref`;
and over a build whose seed documents have pairwise-distinct ids, the
`(document_id, provision_ref)` pairs inserted into `legal_provisions` are
pairwise distinct, so the table's `UNIQUE(document_id, provision_ref)`
constraint is never violated. -/
theorem claim_C1 (ps : List ProvisionSeed)
    (docs : List (List Char × List ProvisionSeed))
    (h : (docs.map (·.1)).Nodup) :
    ((dedupeProvisions ps).map (fun p => trimList p.provision_ref)).Nodup ∧
      (buildProvisionPairs docs).Nodup := by
  constructor
  · obtain ⟨hnd, htrim⟩ := dedupeProvisions_refs_nodup ps
    have heq : (dedupeProvisions ps).map (fun p => trimList p.provision_ref) =
        (dedupeProvisions ps).map (·.provision_ref) :=
      List.map_congr_left fun p hp => htrim p hp
    rw [heq]
    exact hnd
  · unfold buildProvisionPairs
    rw [List.nodup_flatMap]
    constructor
    · intro d _
      have hrefs := (dedupeProvisions_refs_nodup d.2).1
      have heq : (dedupeProvisions d.2).map (fun p => (d.1, p.provision_ref)) =
          ((dedupeProvisions d.2).map (·.provision_ref)).map (Prod.mk d.1) := by
        rw [List.map_map]
        rfl
      rw [heq]
      exact hrefs.map fun a b hab => (Prod.mk.injEq _ _ _ _).mp hab |>.2
    · have hp : docs.Pairwise (fun a b => a.1 ≠ b.1) := by
        unfold List.Nodup at h
        exact List.pairwise_map.mp h
      refine hp.imp ?_
      intro a b hab
      intro x hxa hxb
      obtain ⟨pa, _, hpa⟩ := List.mem_map.mp hxa
      obtain ⟨pb, _, hpb⟩ := List.mem_map.mp hxb
      apply hab
      rw [← hpa] at hpb
      exact ((Prod.mk.injEq _ _ _ _).mp hpb).1.symm

/-- Witness for C1 at a concrete seed set containing a duplicated
(untrimmed) provision ref and two documents. -/
theorem claim_C1_witness :
    ((dedupeProvisions [⟨str "dieu1 ", none, str "1", none, str "aaaa"⟩,
        ⟨str "dieu1", none, str "1", none, str "bb"⟩,
        ⟨str "dieu2", none, str "2", none, str "cc"⟩]).map
      (fun p => trimList p.provision_ref)).Nodup ∧
    (buildProvisionPairs
      [(str "cybersecurity-law-2018",
        [⟨str "dieu1 ", none, str "1", none, str "aaaa"⟩,
         ⟨str "dieu1", none, str "1", none, str "bb"⟩]),
       (str "constitution-2013",
        [⟨str "dieu1", none, str "1", none, str "dd"⟩])]).Nodup :=
  claim_C1 _ _ (by decide)

/-! ### C2 (first half): `dedupeProvisions` keeps the candidate with the
longest whitespace-normalised content -/

theorem lookupA_mapSet (m : List (List Char × ProvisionSeed)) (k : List Char)
    (v : ProvisionSeed) (k' : List Char) :
    lookupA (mapSet m k v) k' = if k' = k then some v else lookupA m k' := by
  induction m with
  | nil =>
    show (if k = k' then some v else lookupA [] k') =
      if k' = k then some v else lookupA [] k'
    by_cases h : k' = k
    · rw [if_pos h.symm, if_pos h]
    · rw [if_neg fun hh => h hh.symm, if_neg h]
  | cons a as ih =>
    obtain ⟨ka, va⟩ := a
    show lookupA (if ka = k then (k, v) :: as else (ka, va) :: mapSet as k v) k' = _
    by_cases h1 : ka = k
    · subst h1
      rw [if_pos rfl, lookupA]
      by_cases h2 : ka = k'
      · rw [if_pos h2, if_pos h2.symm]
      · rw [if_neg h2, if_neg fun hh => h2 hh.symm, lookupA, if_neg h2]
    · rw [if_neg h1, lookupA]
      by_cases h2 : ka = k'
      · rw [if_pos h2, if_neg fun hh => h1 (h2.trans hh), lookupA, if_pos h2]
      · rw [if_neg h2, ih]
        by_cases h3 : k' = k
        · rw [if_pos h3, if_pos h3]
        · rw [if_neg h3, if_neg h3, lookupA, if_neg h2]

theorem lookupA_mem (m : List (List Char × ProvisionSeed)) (k : List Char)
    (v : ProvisionSeed) (h : lookupA m k = some v) : (k, v) ∈ m := by
  induction m with
  | nil => rw [lookupA] at h; cases h
  | cons a as ih =>
    obtain ⟨ka, va⟩ := a
    rw [lookupA] at h
    by_cases h1 : ka = k
    · rw [if_pos h1] at h
      have h2 : va = v := Option.some.inj h
      subst h1
      subst h2
      exact List.mem_cons_self _ _
    · rw [if_neg h1] at h
      exact List.mem_cons_of_mem _ (ih h)

theorem mem_value_eq_of_nodup (m : List (List Char × ProvisionSeed))
    (hnd : (m.map (·.1)).Nodup) (k : List Char) (v v' : ProvisionSeed)
    (h : (k, v) ∈ m) (h' : (k, v') ∈ m) : v = v' := by
  induction m with
  | nil => exact absurd h (List.not_mem_nil _)
  | cons a as ih =>
    rw [List.map_cons, List.nodup_cons] at hnd
    rcases List.mem_cons.mp h with he | he
    · rcases List.mem_cons.mp h' with he' | he'
      · have hvv : (k, v) = (k, v') := he.trans he'.symm
        exact ((Prod.mk.injEq _ _ _ _).mp hvv).2
      · exfalso
        apply hnd.1
        have hk : a.1 = k := by rw [← he]
        rw [hk]
        exact List.mem_map.mpr ⟨(k, v'), he', rfl⟩
    · rcases List.mem_cons.mp h' with he' | he'
      · exfalso
        apply hnd.1
        have hk : a.1 = k := by rw [← he']
        rw [hk]
        exact List.mem_map.mpr ⟨(k, v), he, rfl⟩
      · exact ih hnd.2 he he'

theorem mem_mapSet_of_mem (m : List (List Char × ProvisionSeed))
    (k : List Char) (v : ProvisionSeed) (e : List Char × ProvisionSeed)
    (he : e ∈ m) (hne : e.1 ≠ k) : e ∈ mapSet m k v := by
  induction m with
  | nil => exact absurd he (List.not_mem_nil _)
  | cons a as ih =>
    rw [mapSet]
    by_cases h1 : a.1 = k
    · rw [if_pos h1]
      rcases List.mem_cons.mp he with h | h
      · exfalso; rw [h] at hne; exact hne h1
      · exact List.mem_cons_of_mem _ h
    · rw [if_neg h1]
      rcases List.mem_cons.mp he with h | h
      · rw [h]; exact List.mem_cons_self _ _
      · exact List.mem_cons_of_mem _ (ih h)

/-- Invariant threaded through `dedupeLoop` for the maximality proof:
every stored entry's content comes from an already-seen candidate with the
matching trimmed ref and is maximal (w.r.t. normalised length) among them,
every seen candidate's key is present, and keys are pairwise distinct. -/
def DedupeInv (seen : List ProvisionSeed)
    (m : List (List Char × ProvisionSeed)) : Prop :=
  ((m.map (·.1)).Nodup) ∧
  (∀ e ∈ m,
    (∃ q ∈ seen, trimList q.provision_ref = e.1 ∧ q.content = e.2.content) ∧
    ∀ q ∈ seen, trimList q.provision_ref = e.1 →
      (normalizeWhitespace q.content).length ≤
        (normalizeWhitespace e.2.content).length) ∧
  (∀ q ∈ seen, lookupA m (trimList q.provision_ref) ≠ none)

theorem dedupeLoop_preserves_inv (ps : List ProvisionSeed) :
    ∀ seen m, DedupeInv seen m →
      DedupeInv (seen ++ ps) (dedupeLoop m ps) := by
  induction ps with
  | nil => intro seen m h; rw [dedupeLoop]; simpa using h
  | cons p rest ih =>
    intro seen m h
    obtain ⟨hnd, hent, hkeys⟩ := h
    rw [dedupeLoop]
    have hstep : ∀ m', DedupeInv (seen ++ [p]) m' →
        DedupeInv ((seen ++ [p]) ++ rest) (dedupeLoop m' rest) := fun m' h' =>
      ih (seen ++ [p]) m' h'
    have hmain : DedupeInv (seen ++ p :: rest)
        (dedupeLoop
          (match lookupA m (trimList p.provision_ref) with
           | none => mapSet m (trimList p.provision_ref)
               { p with provision_ref := trimList p.provision_ref }
           | some existing =>
             if (normalizeWhitespace p.content).length >
                 (normalizeWhitespace existing.content).length then
               mapSet m (trimList p.provision_ref)
                 { p with provision_ref := trimList p.provision_ref }
             else m) rest) := by
      have happ : seen ++ p :: rest = (seen ++ [p]) ++ rest := by simp
      rw [happ]
      cases hl : lookupA m (trimList p.provision_ref) with
      | none =>
        apply hstep
        refine ⟨?_, ?_, ?_⟩
        · rw [mapSet_keys_of_absent m _ _ hl, List.nodup_append]
          refine ⟨hnd, List.nodup_singleton _, ?_⟩
          intro a ha hb
          simp at hb
          subst hb
          obtain ⟨e, he, he1⟩ := List.mem_map.mp ha
          exact (lookupA_none_iff _ _).mp hl e he he1
        · intro e he
          rcases mem_mapSet _ _ _ _ he with hm | hm
          · refine ⟨?_, ?_⟩
            · obtain ⟨q, hq, hq1, hq2⟩ := (hent e hm).1
              exact ⟨q, List.mem_append_left _ hq, hq1, hq2⟩
            · intro q hq hq1
              rcases List.mem_append.mp hq with hq' | hq'
              · exact (hent e hm).2 q hq' hq1
              · simp at hq'
                subst hq'
                exfalso
                exact (lookupA_none_iff _ _).mp hl e hm hq1.symm
          · subst hm
            refine ⟨⟨p, by simp, rfl, rfl⟩, ?_⟩
            intro q hq hq1
            rcases List.mem_append.mp hq with hq' | hq'
            · exfalso
              exact hkeys q hq' (by rw [hq1, hl])
            · simp at hq'
              subst hq'
              exact le_refl _
        · intro q hq
          rw [lookupA_mapSet]
          rcases List.mem_append.mp hq with hq' | hq'
          · by_cases hc : trimList q.provision_ref = trimList p.provision_ref
            · rw [if_pos hc]; intro hx; cases hx
            · rw [if_neg hc]; exact hkeys q hq'
          · simp at hq'
            subst hq'
            rw [if_pos rfl]
            intro hx; cases hx
      | some existing =>
        show DedupeInv (seen ++ [p] ++ rest)
          (dedupeLoop
            (if (normalizeWhitespace p.content).length >
                (normalizeWhitespace existing.content).length then
              mapSet m (trimList p.provision_ref)
                { p with provision_ref := trimList p.provision_ref }
            else m) rest)
        by_cases hlen : (normalizeWhitespace p.content).length >
            (normalizeWhitespace existing.content).length
        · rw [if_pos hlen]
          apply hstep
          refine ⟨?_, ?_, ?_⟩
          · rw [mapSet_keys_of_present m _ _ existing hl]
            exact hnd
          · intro e he
            rcases mem_mapSet _ _ _ _ he with hm | hm
            · -- an untouched old entry; its key differs from the new key
              have hne : e.1 ≠ trimList p.provision_ref ∨
                  e = (trimList p.provision_ref, existing) := by
                by_cases hc : e.1 = trimList p.provision_ref
                · right
                  have hex : (trimList p.provision_ref, existing) ∈ m :=
                    lookupA_mem m _ _ hl
                  obtain ⟨e1, e2⟩ := e
                  simp at hc
                  subst hc
                  rw [mem_value_eq_of_nodup m hnd _ _ _ hm hex]
                · left; exact hc
              rcases hne with hne | hne
              · refine ⟨?_, ?_⟩
                · obtain ⟨q, hq, hq1, hq2⟩ := (hent e hm).1
                  exact ⟨q, List.mem_append_left _ hq, hq1, hq2⟩
                · intro q hq hq1
                  rcases List.mem_append.mp hq with hq' | hq'
                  · exact (hent e hm).2 q hq' hq1
                  · simp at hq'
                    subst hq'
                    exact absurd hq1 fun hh => hne hh.symm
              · -- the old entry equal to (key, existing): but after mapSet the
                -- stored value under that key is the new one; show e cannot
                -- survive: it was replaced, so e ∈ mapSet only if equal new
                exfalso
                subst hne
                have := lookupA_mapSet m (trimList p.provision_ref)
                  { p with provision_ref := trimList p.provision_ref }
                  (trimList p.provision_ref)
                rw [if_pos rfl] at this
                have hv : existing =
                    { p with provision_ref := trimList p.provision_ref } := by
                  apply mem_value_eq_of_nodup (mapSet m (trimList p.provision_ref)
                    { p with provision_ref := trimList p.provision_ref })
                  · rw [mapSet_keys_of_present m _ _ existing hl]; exact hnd
                  · exact he
                  · exact lookupA_mem _ _ _ this
                have : (normalizeWhitespace existing.content).length =
                    (normalizeWhitespace p.content).length := by rw [hv]
                omega
            · subst hm
              refine ⟨⟨p, by simp, rfl, rfl⟩, ?_⟩
              intro q hq hq1
              rcases List.mem_append.mp hq with hq' | hq'
              · have hb := (hent (trimList p.provision_ref, existing)
                  (lookupA_mem m _ _ hl)).2 q hq' hq1
                simp at hb ⊢
                omega
              · simp at hq'
                subst hq'
                exact le_refl _
          · intro q hq
            rw [lookupA_mapSet]
            rcases List.mem_append.mp hq with hq' | hq'
            · by_cases hc : trimList q.provision_ref = trimList p.provision_ref
              · rw [if_pos hc]; intro hx; cases hx
              · rw [if_neg hc]; exact hkeys q hq'
            · simp at hq'
              subst hq'
              rw [if_pos rfl]
              intro hx; cases hx
        · rw [if_neg hlen]
          apply hstep
          refine ⟨hnd, ?_, ?_⟩
          · intro e he
            refine ⟨?_, ?_⟩
            · obtain ⟨q, hq, hq1, hq2⟩ := (hent e he).1
              exact ⟨q, List.mem_append_left _ hq, hq1, hq2⟩
            · intro q hq hq1
              rcases List.mem_append.mp hq with hq' | hq'
              · exact (hent e he).2 q hq' hq1
              · simp at hq'
                -- hq' : q = p; e is the entry under p's key: (key, existing)
                have hex : (trimList p.provision_ref, existing) ∈ m :=
                  lookupA_mem m _ _ hl
                obtain ⟨e1, e2⟩ := e
                have hk : e1 = trimList p.provision_ref := by
                  rw [← hq']
                  exact hq1.symm
                have he2 : (trimList p.provision_ref, e2) ∈ m := by
                  rw [← hk]
                  exact he
                have hv : e2 = existing :=
                  mem_value_eq_of_nodup m hnd _ _ _ he2 hex
                show (normalizeWhitespace q.content).length ≤
                  (normalizeWhitespace e2.content).length
                rw [hq', hv]
                exact Nat.le_of_not_lt hlen
          · intro q hq
            rcases List.mem_append.mp hq with hq' | hq'
            · exact hkeys q hq'
            · simp at hq'
              subst hq'
              rw [hl]
              intro hx; cases hx
    exact hmain

/-- For every surviving provision, `dedupeProvisions` kept an input
candidate whose whitespace-normalised content length is maximal among all
input candidates with the same trimmed ref. -/
theorem dedupeProvisions_max (ps : List ProvisionSeed) :
    ∀ p ∈ dedupeProvisions ps,
      (∃ q ∈ ps, trimList q.provision_ref = p.provision_ref ∧
        q.content = p.content) ∧
      ∀ q ∈ ps, trimList q.provision_ref = p.provision_ref →
        (normalizeWhitespace q.content).length ≤
          (normalizeWhitespace p.content).length := by
  intro p hp
  obtain ⟨e, he, hep⟩ := List.mem_map.mp hp
  have hinv : DedupeInv ([] ++ ps) (dedupeLoop [] ps) :=
    dedupeLoop_preserves_inv ps [] [] (by
      refine ⟨List.nodup_nil, ?_, ?_⟩
      · intro e he; cases he
      · intro q hq; cases hq)
  simp only [List.nil_append] at hinv
  have hval := (dedupeLoop_invariant ps [] ⟨List.nodup_nil, by simp⟩).2 e he
  obtain ⟨⟨q, hq, hq1, hq2⟩, hmax⟩ := hinv.2.1 e he
  subst hep
  constructor
  · exact ⟨q, hq, by rw [hq1, hval], hq2⟩
  · intro q' hq' hq1'
    exact hmax q' hq' (by rw [hq1', hval])

/-! ### Parser model (`scripts/lib/parser.ts`, `parseVietnameseHtml`)

The two scanning regexes (`articlePattern`, line 119, and `chapterPattern`,
line 133) produce, via repeated `exec`, the list of article-boundary
matches (captured number, `match.index`, match end) and the list of
chapter-heading matches (index and already whitespace-normalised name), in
strictly increasing position order.  We take those two lists as inputs and
embed the main loop (lines 143-223) over them; the definitions-extraction
side channel (lines 213-222) is omitted since it only feeds the separate
`definitions` output. -/

/-- One match of `articlePattern`: captured article number, `match.index`
and the end position of the match (where the content segment starts). -/
structure ArtStart where
  num : List Char
  index : Nat
  matchEnd : Nat
  deriving DecidableEq, Repr

/-- One match of `chapterPattern`: `chapterMatch.index` and the
whitespace-normalised heading name (line 138). -/
structure ChapterPos where
  pos : Nat
  name : List Char
  deriving DecidableEq, Repr

/-- `ParsedProvision` from `scripts/lib/parser.ts`. -/
structure PProv where
  provision_ref : List Char
  chapter : Option (List Char)
  sectionLabel : List Char
  title : List Char
  content : List Char
  deriving DecidableEq, Repr

/-- Mutable state of the parsing loop: the `provisions` array, the
`seenArticles` map (article number → index into `provisions`) and the
`currentChapter` variable. -/
structure ParseState where
  provisions : List PProv
  seen : List (List Char × Nat)
  currentChapter : Option (List Char)
  deriving DecidableEq, Repr

/-- JS `text.substring(start, end)` for `start ≤ end` (the only case the
parser reaches, since match positions are increasing). -/
def sliceL (t : List Char) (s e : Nat) : List Char :=
  (t.drop s).take (e - s)

/-- JS `Map.get` on `seenArticles`. -/
def lookupN (m : List (List Char × Nat)) (k : List Char) : Option Nat :=
  match m with
  | [] => none
  | (k', v) :: rest => if k' = k then some v else lookupN rest k

/-- First index matched by `/[.;]\s/` (JS `String.search`). -/
def findSentenceEnd : List Char → Option Nat
  | [] => none
  | [_] => none
  | c :: d :: rest =>
    if (c == '.' || c == ';') && isWS d then some 0
    else (findSentenceEnd (d :: rest)).map (· + 1)

/-- Title fallback of `parseVietnameseHtml` (lines 180-183): first ~120
characters, with an ellipsis when truncated. -/
def deriveTitleCap (rawContent : List Char) : List Char :=
  let title := trimList (rawContent.take (min 120 rawContent.length))
  if title.length < rawContent.length then title ++ str "..." else title

/-- Title fallback of `parseVietnameseHtml` (lines 176-183): first
sentence if it ends before position 200, else the 120-character cap. -/
def deriveTitleFallback (rawContent : List Char) : List Char :=
  match findSentenceEnd rawContent with
  | some n =>
    if 0 < n ∧ n < 200 then trimList (rawContent.take (n + 1))
    else deriveTitleCap rawContent
  | none => deriveTitleCap rawContent

/-- Title derivation of `parseVietnameseHtml` (lines 167-185). -/
def deriveTitle (rawContent : List Char) : List Char :=
  match rawContent.findIdx? (· == '\n') with
  | some n =>
    if 0 < n ∧ n < 200 then trimList (rawContent.take n)
    else deriveTitleFallback rawContent
  | none => deriveTitleFallback rawContent

/-- The per-article dedup-and-store step of `parseVietnameseHtml` (lines
187-211): if the article number was seen, keep whichever candidate has the
longer content (replacing in place), else push a new provision and record
its index.  Content is capped at 12 000 characters on store.  (The
`provisions.get?` cannot actually miss: every index stored in `seen` is a
valid index of `provisions`.) -/
def dedupInsert (st : ParseState) (articleNum provisionRef : List Char)
    (chapter : Option (List Char)) (title content : List Char) : ParseState :=
  if content.length > 10 then
    match lookupN st.seen articleNum with
    | some existingIdx =>
      match st.provisions.get? existingIdx with
      | some existing =>
        if content.length > existing.content.length then
          let newProv : PProv :=
            ⟨provisionRef, chapter, articleNum, title, content.take 12000⟩
          { st with provisions := st.provisions.set existingIdx newProv }
        else st
      | none => st
    | none =>
      let newProv : PProv :=
        ⟨provisionRef, chapter, articleNum, title, content.take 12000⟩
      { st with
        seen := st.seen ++ [(articleNum, st.provisions.length)],
        provisions := st.provisions ++ [newProv] }
  else st

/-- One iteration of the article loop (lines 145-211): update
`currentChapter` by scanning all chapter positions (lines 152-156), slice
and trim the segment (line 162), skip segments under 15 characters (line
165), derive the title, and store through the dedup step. -/
def chapterFold (chapterPositions : List ChapterPos) (idx : Nat)
    (cur : Option (List Char)) : Option (List Char) :=
  chapterPositions.foldl
    (fun acc cp => if cp.pos < idx then some cp.name else acc) cur

def processArticle (plainText : List Char) (chapterPositions : List ChapterPos)
    (st : ParseState) (art : ArtStart) (artEnd : Nat) : ParseState :=
  let currentChapter := chapterFold chapterPositions art.index st.currentChapter
  let st1 : ParseState := { st with currentChapter := currentChapter }
  let provisionRef := str "dieu" ++ art.num
  let rawContent := trimList (sliceL plainText art.matchEnd artEnd)
  if rawContent.length < 15 then st1
  else
    let title := deriveTitle rawContent
    let content := trimList rawContent
    dedupInsert st1 art.num provisionRef currentChapter title content

/-- The article loop: each segment runs to the next article's
`match.index`, the last to the end of the text (lines 147-149). -/
def parseLoop (plainText : List Char) (chs : List ChapterPos) :
    ParseState → List ArtStart → ParseState
  | st, [] => st
  | st, a :: rest =>
    let artEnd :=
      match rest with
      | [] => plainText.length
      | b :: _ => b.index
    parseLoop plainText chs (processArticle plainText chs st a artEnd) rest

def initState : ParseState :=
  ⟨[], [], none⟩

/-- The `provisions` output of `parseVietnameseHtml` as a function of the
stripped text and the two scanner outputs. -/
def parseProvisions (plainText : List Char) (chs : List ChapterPos)
    (arts : List ArtStart) : List PProv :=
  (parseLoop plainText chs initState arts).provisions

/-! ### Claim C2 -/

/-- Two candidates for the same article number, pushed through the parser
dedup step from the empty state: the survivor is decided by comparing the
second candidate's raw length against the first's *capped* length. -/
theorem dedupInsert_twice (num ref : List Char) (ch1 ch2 : Option (List Char))
    (t1 t2 c1 c2 : List Char) (h1' : 10 < c1.length) (h2' : 10 < c2.length) :
    (dedupInsert (dedupInsert initState num ref ch1 t1 c1)
        num ref ch2 t2 c2).provisions.map (·.content) =
      if (c1.take 12000).length < c2.length then [c2.take 12000]
      else [c1.take 12000] := by
  by_cases hc : (c1.take 12000).length < c2.length
  · rw [if_pos hc]
    have hc' : 12000 < c2.length ∨ c1.length < c2.length := by
      rw [List.length_take] at hc
      omega
    simp [dedupInsert, initState, lookupN, h1', h2', hc']
  · rw [if_neg hc]
    have hc' : ¬(12000 < c2.length ∨ c1.length < c2.length) := by
      rw [List.length_take] at hc
      omega
    simp [dedupInsert, initState, lookupN, h1', h2', hc']

/-- Claim C2 (amended: the parser-side statement needs the contents to be
within the 12 000-character storage cap, see the counterexample):
`dedupeProvisions` keeps, per provision_ref, a candidate maximising the
whitespace-normalised content length; and the per-article dedup of
`parseVietnameseHtml`, applied to two candidates for the same article
number whose contents are within the cap, stores the longer content. -/
theorem claim_C2 (ps : List ProvisionSeed) (num ref : List Char)
    (ch1 ch2 : Option (List Char)) (t1 t2 c1 c2 : List Char)
    (h1 : c1.length ≤ 12000) (h2 : c2.length ≤ 12000)
    (h1' : 10 < c1.length) (h2' : 10 < c2.length) :
    (∀ p ∈ dedupeProvisions ps,
      (∃ q ∈ ps, trimList q.provision_ref = p.provision_ref ∧
        q.content = p.content) ∧
      ∀ q ∈ ps, trimList q.provision_ref = p.provision_ref →
        (normalizeWhitespace q.content).length ≤
          (normalizeWhitespace p.content).length) ∧
    ((dedupInsert (dedupInsert initState num ref ch1 t1 c1)
        num ref ch2 t2 c2).provisions.map (·.content) =
      [if c1.length < c2.length then c2 else c1]) := by
  constructor
  · exact dedupeProvisions_max ps
  · have htake1 : c1.take 12000 = c1 := List.take_of_length_le h1
    have htake2 : c2.take 12000 = c2 := List.take_of_length_le h2
    rw [dedupInsert_twice num ref ch1 ch2 t1 t2 c1 c2 h1' h2', htake1, htake2]
    rw [apply_ite (fun c => [c])]

/-- Witness for (amended) C2 at concrete inputs within the cap. -/
theorem claim_C2_witness :
    (∀ p ∈ dedupeProvisions
        [⟨str "dieu1 ", none, str "1", none, str "short content"⟩,
         ⟨str "dieu1", none, str "1", none, str "much longer content here"⟩],
      (∃ q ∈ [⟨str "dieu1 ", none, str "1", none, str "short content"⟩,
         (⟨str "dieu1", none, str "1", none,
            str "much longer content here"⟩ : ProvisionSeed)],
        trimList q.provision_ref = p.provision_ref ∧
        q.content = p.content) ∧
      ∀ q ∈ [⟨str "dieu1 ", none, str "1", none, str "short content"⟩,
         (⟨str "dieu1", none, str "1", none,
            str "much longer content here"⟩ : ProvisionSeed)],
        trimList q.provision_ref = p.provision_ref →
        (normalizeWhitespace q.content).length ≤
          (normalizeWhitespace p.content).length) ∧
    ((dedupInsert (dedupInsert initState (str "1") (str "dieu1") none []
        (str "aaaaaaaaaaaa")) (str "1") (str "dieu1") none []
        (str "bbbbbbbbbbbbb")).provisions.map (·.content) =
      [if (str "aaaaaaaaaaaa").length < (str "bbbbbbbbbbbbb").length then
        str "bbbbbbbbbbbbb" else str "aaaaaaaaaaaa"]) :=
  claim_C2 _ _ _ _ _ _ _ _ _
    (by decide) (by decide) (by decide) (by decide)

set_option maxRecDepth 4000 in
/-- Counterexample to C2 as stated: with contents beyond the 12 000 cap,
the parser-side dedup stores the content of the strictly shorter second
candidate (13 000 `a`s then 12 001 `b`s store 12 000 `b`s). -/
theorem claim_C2_counterexample :
    (12001 : Nat) < 13000 ∧
    ((dedupInsert (dedupInsert initState (str "1") (str "dieu1") none []
        (List.replicate 13000 'a')) (str "1") (str "dieu1") none []
        (List.replicate 12001 'b')).provisions.map (·.content) =
      [List.replicate 12000 'b']) ∧
    List.replicate 12000 'b' ≠ (List.replicate 13000 'a').take 12000 := by
  refine ⟨by norm_num, ?_, ?_⟩
  · have htk1 : (List.replicate 13000 'a').take 12000 =
        List.replicate 12000 'a' := by
      rw [List.take_replicate]
      norm_num
    have htk2 : (List.replicate 12001 'b').take 12000 =
        List.replicate 12000 'b' := by
      rw [List.take_replicate]
      norm_num
    rw [dedupInsert_twice (str "1") (str "dieu1") none none [] []
      (List.replicate 13000 'a') (List.replicate 12001 'b')
      (by rw [List.length_replicate]; norm_num)
      (by rw [List.length_replicate]; norm_num)]
    rw [htk1, htk2]
    rw [if_pos (by rw [List.length_replicate, List.length_replicate]; norm_num)]
  · intro h
    have hh := congrArg List.head? h
    have htk1 : (List.replicate 13000 'a').take 12000 =
        List.replicate 12000 'a' := by
      rw [List.take_replicate]
      norm_num
    rw [htk1] at hh
    have h1 : (List.replicate 12000 'b').head? = some 'b' := by
      rw [show (12000 : Nat) = 11999 + 1 by omega, List.replicate_succ]
      rfl
    have h2 : (List.replicate 12000 'a').head? = some 'a' := by
      rw [show (12000 : Nat) = 11999 + 1 by omega, List.replicate_succ]
      rfl
    rw [h1, h2] at hh
    cases hh

/-! ### Claim C3: which occurrence of a duplicated article number wins -/

/-- The segment content derived for an article match whose segment ends at
`e` (line 162 of the parser: `substring(matchEnd, artEnd).trim()`). -/
def contentOf (text : List Char) (pr : ArtStart × Nat) : List Char :=
  trimList (sliceL text pr.1.matchEnd pr.2)

/-- Pair each article match with its segment end: the next match's index,
or the end of the text for the last match (lines 147-149). -/
def withEnds (text : List Char) : List ArtStart → List (ArtStart × Nat)
  | [] => []
  | a :: rest =>
    (a, match rest with | [] => text.length | b :: _ => b.index) ::
      withEnds text rest

/-- The article loop, reformulated over precomputed (match, segment-end)
pairs. -/
def processPairs (text : List Char) (chs : List ChapterPos) :
    ParseState → List (ArtStart × Nat) → ParseState
  | st, [] => st
  | st, (a, e) :: rest => processPairs text chs (processArticle text chs st a e) rest

theorem parseLoop_eq_processPairs (text : List Char) (chs : List ChapterPos) :
    ∀ (arts : List ArtStart) (st : ParseState),
      parseLoop text chs st arts = processPairs text chs st (withEnds text arts) := by
  intro arts
  induction arts with
  | nil => intro st; rfl
  | cons a rest ih =>
    intro st
    rw [parseLoop.eq_def, withEnds.eq_def, processPairs.eq_def]
    exact ih _

/-- The `seenArticles` map as a function of the provisions array: entry
`i` holds provision `i`'s article number and its index. -/
def seenOf (ps : List PProv) (i : Nat) : List (List Char × Nat) :=
  match ps with
  | [] => []
  | p :: rest => (p.sectionLabel, i) :: seenOf rest (i + 1)

theorem seenOf_append (q : PProv) :
    ∀ (ps : List PProv) (i : Nat),
      seenOf (ps ++ [q]) i = seenOf ps i ++ [(q.sectionLabel, i + ps.length)] := by
  intro ps
  induction ps with
  | nil => intro i; simp [seenOf]
  | cons p rest ih =>
    intro i
    rw [List.cons_append, seenOf, seenOf, ih (i + 1)]
    simp
    omega

theorem lookupN_seenOf_none (n : List Char) :
    ∀ (ps : List PProv) (i : Nat),
      lookupN (seenOf ps i) n = none ↔ ∀ p ∈ ps, p.sectionLabel ≠ n := by
  intro ps
  induction ps with
  | nil =>
    intro i
    constructor
    · intro _ p hp; exact absurd hp (List.not_mem_nil p)
    · intro _; rfl
  | cons p rest ih =>
    intro i
    rw [seenOf, lookupN]
    by_cases h : p.sectionLabel = n
    · rw [if_pos h]
      constructor
      · intro hc; cases hc
      · intro hall; exact absurd h (hall p (List.mem_cons_self p rest))
    · rw [if_neg h, ih (i + 1)]
      constructor
      · intro hall q hq
        rcases List.mem_cons.mp hq with hq | hq
        · rw [hq]; exact h
        · exact hall q hq
      · intro hall q hq
        exact hall q (List.mem_cons_of_mem p hq)

theorem lookupN_seenOf_some (n : List Char) :
    ∀ (ps : List PProv) (i j : Nat),
      lookupN (seenOf ps i) n = some j →
      i ≤ j ∧ ∃ p, ps.get? (j - i) = some p ∧ p.sectionLabel = n := by
  intro ps
  induction ps with
  | nil => intro i j h; rw [seenOf, lookupN] at h; cases h
  | cons p rest ih =>
    intro i j h
    rw [seenOf, lookupN] at h
    by_cases hc : p.sectionLabel = n
    · rw [if_pos hc] at h
      have hj : i = j := Option.some.inj h
      subst hj
      exact ⟨le_refl i, p, by simp, hc⟩
    · rw [if_neg hc] at h
      obtain ⟨hij, q, hq, hqn⟩ := ih (i + 1) j h
      refine ⟨by omega, q, ?_, hqn⟩
      have : j - i = (j - (i + 1)) + 1 := by omega
      rw [this]
      simpa using hq

theorem seenOf_set (v : PProv) :
    ∀ (ps : List PProv) (k i : Nat) (p : PProv), ps.get? k = some p →
      v.sectionLabel = p.sectionLabel →
      seenOf (ps.set k v) i = seenOf ps i := by
  intro ps
  induction ps with
  | nil => intro k i p hp; cases hp
  | cons q rest ih =>
    intro k i p hp hlab
    cases k with
    | zero =>
      have : q = p := Option.some.inj (by simpa using hp)
      subst this
      rw [List.set_cons_zero, seenOf, seenOf, hlab]
    | succ k' =>
      rw [List.set_cons_succ, seenOf, seenOf, ih k' (i + 1) p (by simpa using hp) hlab]

theorem map_label_set (v : PProv) :
    ∀ (ps : List PProv) (k : Nat) (p : PProv), ps.get? k = some p →
      v.sectionLabel = p.sectionLabel →
      (ps.set k v).map (·.sectionLabel) = ps.map (·.sectionLabel) := by
  intro ps
  induction ps with
  | nil => intro k p hp; cases hp
  | cons q rest ih =>
    intro k p hp hlab
    cases k with
    | zero =>
      have : q = p := Option.some.inj (by simpa using hp)
      subst this
      rw [List.set_cons_zero]
      simp [hlab]
    | succ k' =>
      rw [List.set_cons_succ]
      simp only [List.map_cons]
      rw [ih k' p (by simpa using hp) hlab]

theorem mem_set_self_pprov (l : List PProv) (k : Nat) (v : PProv)
    (h : k < l.length) : v ∈ l.set k v := by
  refine List.mem_iff_getElem?.mpr ⟨k, ?_⟩
  exact List.getElem?_set_self h

theorem mem_set_of_ne_pprov (l : List PProv) (k : Nat) (v q p : PProv)
    (hget : l.get? k = some p) (hq : q ∈ l) (hne : q ≠ p) : q ∈ l.set k v := by
  obtain ⟨j, hj⟩ := List.mem_iff_getElem?.mp hq
  have hjk : k ≠ j := by
    intro hh
    subst hh
    rw [List.get?_eq_getElem?] at hget
    rw [hget] at hj
    exact hne (Option.some.inj hj).symm
  refine List.mem_iff_getElem?.mpr ⟨j, ?_⟩
  rw [List.getElem?_set_ne hjk]
  exact hj

theorem mem_set_label_eq (l : List PProv) (k : Nat) (v p x : PProv)
    (hnd : (l.map (·.sectionLabel)).Nodup) (hget : l.get? k = some p)
    (hx : x ∈ l.set k v) (hlab : x.sectionLabel = p.sectionLabel) : x = v := by
  have hk : k < l.length := by
    rw [List.get?_eq_getElem?] at hget
    by_contra hc
    rw [List.getElem?_eq_none (by omega)] at hget
    cases hget
  obtain ⟨j, hj⟩ := List.mem_iff_getElem?.mp hx
  by_cases hjk : k = j
  · subst hjk
    rw [List.getElem?_set_self hk] at hj
    exact (Option.some.inj hj).symm
  · exfalso
    rw [List.getElem?_set_ne hjk] at hj
    have hj' : j < l.length := by
      by_contra hc
      rw [List.getElem?_eq_none (by omega)] at hj
      cases hj
    have hgk : l[k]? = some p := by rw [← List.get?_eq_getElem?]; exact hget
    have hmapk : (l.map (·.sectionLabel))[k]? = some p.sectionLabel := by
      rw [List.getElem?_map, hgk]
      rfl
    have hmapj : (l.map (·.sectionLabel))[j]? = some x.sectionLabel := by
      rw [List.getElem?_map, hj]
      rfl
    have hinj := List.nodup_iff_injective_getElem.mp hnd
    have hk' : k < (l.map (·.sectionLabel)).length := by
      rw [List.length_map]; exact hk
    have hj'' : j < (l.map (·.sectionLabel)).length := by
      rw [List.length_map]; exact hj'
    have hvk : (l.map (·.sectionLabel))[k] = p.sectionLabel := by
      have := List.getElem?_eq_getElem hk'
      rw [this] at hmapk
      exact Option.some.inj hmapk
    have hvj : (l.map (·.sectionLabel))[j] = x.sectionLabel := by
      have := List.getElem?_eq_getElem hj''
      rw [this] at hmapj
      exact Option.some.inj hmapj
    apply hjk
    have : (⟨k, hk'⟩ : Fin (l.map (·.sectionLabel)).length) = ⟨j, hj''⟩ := by
      apply hinj
      show (l.map (·.sectionLabel))[k] = (l.map (·.sectionLabel))[j]
      rw [hvk, hvj, hlab]
    exact congrArg Fin.val this

/-- Invariant threaded through the article loop for the occurrence-choice
proof: the `seen` map mirrors the provisions array, article numbers are
unique, every stored provision holds the capped content of an eligible
processed occurrence of its number and is maximal among them (in capped
length), and every eligible processed occurrence has a stored provision. -/
def C3Inv (text : List Char) (processed : List (ArtStart × Nat))
    (st : ParseState) : Prop :=
  st.seen = seenOf st.provisions 0 ∧
  (st.provisions.map (·.sectionLabel)).Nodup ∧
  (∀ p ∈ st.provisions,
    (∃ pr ∈ processed, pr.1.num = p.sectionLabel ∧
      15 ≤ (contentOf text pr).length ∧
      p.content = (contentOf text pr).take 12000) ∧
    (∀ pr ∈ processed, pr.1.num = p.sectionLabel →
      min 12000 (contentOf text pr).length ≤ p.content.length)) ∧
  (∀ pr ∈ processed, 15 ≤ (contentOf text pr).length →
    ∃ p ∈ st.provisions, p.sectionLabel = pr.1.num)

theorem c3inv_dedup (text : List Char) (processed : List (ArtStart × Nat))
    (st1 : ParseState) (a : ArtStart) (e : Nat)
    (ch : Option (List Char)) (title : List Char)
    (hseen : st1.seen = seenOf st1.provisions 0)
    (hnd : (st1.provisions.map (·.sectionLabel)).Nodup)
    (hmax : ∀ p ∈ st1.provisions,
      (∃ pr ∈ processed, pr.1.num = p.sectionLabel ∧
        15 ≤ (contentOf text pr).length ∧
        p.content = (contentOf text pr).take 12000) ∧
      (∀ pr ∈ processed, pr.1.num = p.sectionLabel →
        min 12000 (contentOf text pr).length ≤ p.content.length))
    (hcov : ∀ pr ∈ processed, 15 ≤ (contentOf text pr).length →
      ∃ p ∈ st1.provisions, p.sectionLabel = pr.1.num)
    (hlen : 15 ≤ (contentOf text (a, e)).length) :
    C3Inv text (processed ++ [(a, e)])
      (dedupInsert st1 a.num (str "dieu" ++ a.num) ch title
        (contentOf text (a, e))) := by
  have hlen10 : (contentOf text (a, e)).length > 10 := by omega
  cases hlk : lookupN st1.seen a.num with
  | none =>
    have habsent : ∀ p ∈ st1.provisions, p.sectionLabel ≠ a.num := by
      rw [hseen] at hlk
      exact (lookupN_seenOf_none a.num st1.provisions 0).mp hlk
    have hstep : dedupInsert st1 a.num (str "dieu" ++ a.num) ch title
        (contentOf text (a, e)) =
        { st1 with
          seen := st1.seen ++ [(a.num, st1.provisions.length)],
          provisions := st1.provisions ++
            [⟨str "dieu" ++ a.num, ch, a.num, title,
              (contentOf text (a, e)).take 12000⟩] } := by
      simp only [dedupInsert, hlen10, if_true, hlk]
    rw [hstep]
    refine ⟨?_, ?_, ?_, ?_⟩
    · show st1.seen ++ [(a.num, st1.provisions.length)] =
        seenOf (st1.provisions ++
          [⟨str "dieu" ++ a.num, ch, a.num, title,
            (contentOf text (a, e)).take 12000⟩]) 0
      rw [hseen, seenOf_append]
      simp
    · show ((st1.provisions ++
          [(⟨str "dieu" ++ a.num, ch, a.num, title,
            (contentOf text (a, e)).take 12000⟩ : PProv)]).map
          (·.sectionLabel)).Nodup
      rw [List.map_append, List.nodup_append]
      refine ⟨hnd, List.nodup_singleton _, ?_⟩
      intro x hx hx2
      simp at hx2
      obtain ⟨p, hp, hpl⟩ := List.mem_map.mp hx
      subst hx2
      exact habsent p hp (by rw [← hpl])
    · intro p hp
      rcases List.mem_append.mp hp with hp | hp
      · refine ⟨?_, ?_⟩
        · obtain ⟨pr, hpr, h1, h2, h3⟩ := (hmax p hp).1
          exact ⟨pr, List.mem_append_left _ hpr, h1, h2, h3⟩
        · intro pr hpr hnum
          rcases List.mem_append.mp hpr with hpr | hpr
          · exact (hmax p hp).2 pr hpr hnum
          · simp at hpr
            subst hpr
            exact absurd hnum.symm (habsent p hp)
      · simp at hp
        subst hp
        refine ⟨⟨(a, e), by simp, rfl, hlen, rfl⟩, ?_⟩
        intro pr hpr hnum
        rcases List.mem_append.mp hpr with hpr | hpr
        · by_cases h15 : 15 ≤ (contentOf text pr).length
          · obtain ⟨q, hq, hql⟩ := hcov pr hpr h15
            refine absurd ?_ (habsent q hq)
            rw [hql]
            exact hnum
          · show min 12000 (contentOf text pr).length ≤
              ((contentOf text (a, e)).take 12000).length
            rw [List.length_take]
            omega
        · simp at hpr
          subst hpr
          show min 12000 (contentOf text (a, e)).length ≤
            ((contentOf text (a, e)).take 12000).length
          rw [List.length_take]
    · intro pr hpr h15
      rcases List.mem_append.mp hpr with hpr | hpr
      · obtain ⟨q, hq, hql⟩ := hcov pr hpr h15
        exact ⟨q, List.mem_append_left _ hq, hql⟩
      · simp at hpr
        subst hpr
        refine ⟨_, List.mem_append_right _ (List.mem_singleton_self _), rfl⟩
  | some idx =>
    have hlk' : lookupN (seenOf st1.provisions 0) a.num = some idx := by
      rw [← hseen]; exact hlk
    obtain ⟨-, pidx, hgetx, hlabx⟩ :=
      lookupN_seenOf_some a.num st1.provisions 0 idx hlk'
    rw [Nat.sub_zero] at hgetx
    have hstep : dedupInsert st1 a.num (str "dieu" ++ a.num) ch title
        (contentOf text (a, e)) =
        (if (contentOf text (a, e)).length > pidx.content.length then
          { st1 with provisions :=
              st1.provisions.set idx (⟨str "dieu" ++ a.num, ch, a.num, title,
                (contentOf text (a, e)).take 12000⟩ : PProv) }
        else st1) := by
      simp only [dedupInsert, hlen10, if_true, hlk, hgetx]
    rw [hstep]
    by_cases hcmp : (contentOf text (a, e)).length > pidx.content.length
    · rw [if_pos hcmp]
      have hkx : idx < st1.provisions.length := by
        rw [List.get?_eq_getElem?] at hgetx
        by_contra hc
        rw [List.getElem?_eq_none (by omega)] at hgetx
        cases hgetx
      have hnewlab : (⟨str "dieu" ++ a.num, ch, a.num, title,
          (contentOf text (a, e)).take 12000⟩ : PProv).sectionLabel =
          pidx.sectionLabel := by
        rw [hlabx]
      refine ⟨?_, ?_, ?_, ?_⟩
      · show st1.seen = seenOf (st1.provisions.set idx
          (⟨str "dieu" ++ a.num, ch, a.num, title,
            (contentOf text (a, e)).take 12000⟩ : PProv)) 0
        rw [hseen, seenOf_set _ st1.provisions idx 0 pidx hgetx hnewlab]
      · show ((st1.provisions.set idx
          (⟨str "dieu" ++ a.num, ch, a.num, title,
            (contentOf text (a, e)).take 12000⟩ : PProv)).map
            (·.sectionLabel)).Nodup
        rw [map_label_set _ st1.provisions idx pidx hgetx hnewlab]
        exact hnd
      · intro p hp
        rcases List.mem_or_eq_of_mem_set hp with hpm | hpm
        · by_cases hpl : p.sectionLabel = a.num
          · have hpeq : p = ⟨str "dieu" ++ a.num, ch, a.num, title,
                (contentOf text (a, e)).take 12000⟩ :=
              mem_set_label_eq st1.provisions idx _ pidx p hnd hgetx hp
                (by rw [hpl, hlabx])
            subst hpeq
            refine ⟨⟨(a, e), by simp, rfl, hlen, rfl⟩, ?_⟩
            intro pr hpr hnum
            rcases List.mem_append.mp hpr with hpr | hpr
            · have hprn : pr.1.num = pidx.sectionLabel := by
                rw [hlabx]
                exact hnum
              have hb := (hmax pidx
                (List.mem_iff_get?.mpr ⟨idx, hgetx⟩)).2 pr hpr hprn
              show min 12000 (contentOf text pr).length ≤
                ((contentOf text (a, e)).take 12000).length
              rw [List.length_take]
              omega
            · simp at hpr
              subst hpr
              show min 12000 (contentOf text (a, e)).length ≤
                ((contentOf text (a, e)).take 12000).length
              rw [List.length_take]
          · refine ⟨?_, ?_⟩
            · obtain ⟨pr, hpr, h1, h2, h3⟩ := (hmax p hpm).1
              exact ⟨pr, List.mem_append_left _ hpr, h1, h2, h3⟩
            · intro pr hpr hnum
              rcases List.mem_append.mp hpr with hpr | hpr
              · exact (hmax p hpm).2 pr hpr hnum
              · simp at hpr
                subst hpr
                exact absurd hnum.symm hpl
        · subst hpm
          refine ⟨⟨(a, e), by simp, rfl, hlen, rfl⟩, ?_⟩
          intro pr hpr hnum
          rcases List.mem_append.mp hpr with hpr | hpr
          · have hprn : pr.1.num = pidx.sectionLabel := by
              rw [hlabx]
              exact hnum
            have hb := (hmax pidx
              (List.mem_iff_get?.mpr ⟨idx, hgetx⟩)).2 pr hpr hprn
            show min 12000 (contentOf text pr).length ≤
              ((contentOf text (a, e)).take 12000).length
            rw [List.length_take]
            omega
          · simp at hpr
            subst hpr
            show min 12000 (contentOf text (a, e)).length ≤
              ((contentOf text (a, e)).take 12000).length
            rw [List.length_take]
      · intro pr hpr h15
        have hnewmem : (⟨str "dieu" ++ a.num, ch, a.num, title,
            (contentOf text (a, e)).take 12000⟩ : PProv) ∈
            st1.provisions.set idx
              (⟨str "dieu" ++ a.num, ch, a.num, title,
                (contentOf text (a, e)).take 12000⟩ : PProv) :=
          mem_set_self_pprov _ idx _ hkx
        rcases List.mem_append.mp hpr with hpr | hpr
        · obtain ⟨q, hq, hql⟩ := hcov pr hpr h15
          by_cases hqp : q = pidx
          · subst hqp
            exact ⟨_, hnewmem, by rw [← hql, hlabx]⟩
          · exact ⟨q, mem_set_of_ne_pprov _ idx _ q pidx hgetx hq hqp, hql⟩
        · simp at hpr
          subst hpr
          exact ⟨_, hnewmem, rfl⟩
    · rw [if_neg hcmp]
      refine ⟨hseen, hnd, ?_, ?_⟩
      · intro p hp
        refine ⟨?_, ?_⟩
        · obtain ⟨pr, hpr, h1, h2, h3⟩ := (hmax p hp).1
          exact ⟨pr, List.mem_append_left _ hpr, h1, h2, h3⟩
        · intro pr hpr hnum
          rcases List.mem_append.mp hpr with hpr | hpr
          · exact (hmax p hp).2 pr hpr hnum
          · simp at hpr
            subst hpr
            have hpp : p = pidx := by
              apply List.inj_on_of_nodup_map hnd hp
                (List.mem_iff_get?.mpr ⟨idx, hgetx⟩)
              rw [← hnum, hlabx]
            subst hpp
            have hm : min 12000 (contentOf text (a, e)).length ≤
                (contentOf text (a, e)).length := Nat.min_le_right _ _
            omega
      · intro pr hpr h15
        rcases List.mem_append.mp hpr with hpr | hpr
        · exact hcov pr hpr h15
        · simp at hpr
          subst hpr
          exact ⟨pidx, List.mem_iff_get?.mpr ⟨idx, hgetx⟩, hlabx⟩

theorem processArticle_eq (text : List Char) (chs : List ChapterPos)
    (st : ParseState) (a : ArtStart) (e : Nat) :
    processArticle text chs st a e =
      (if (contentOf text (a, e)).length < 15 then
        { st with currentChapter := chapterFold chs a.index st.currentChapter }
      else
        dedupInsert
          { st with currentChapter := chapterFold chs a.index st.currentChapter }
          a.num (str "dieu" ++ a.num)
          (chapterFold chs a.index st.currentChapter)
          (deriveTitle (contentOf text (a, e)))
          (trimList (contentOf text (a, e)))) := rfl

theorem c3inv_step (text : List Char) (chs : List ChapterPos)
    (processed : List (ArtStart × Nat)) (st : ParseState) (a : ArtStart) (e : Nat)
    (h : C3Inv text processed st) :
    C3Inv text (processed ++ [(a, e)]) (processArticle text chs st a e) := by
  obtain ⟨hseen, hnd, hmax, hcov⟩ := h
  rw [processArticle_eq]
  by_cases hlen : (contentOf text (a, e)).length < 15
  · rw [if_pos hlen]
    refine ⟨hseen, hnd, ?_, ?_⟩
    · intro p hp
      refine ⟨?_, ?_⟩
      · obtain ⟨pr, hpr, h1, h2, h3⟩ := (hmax p hp).1
        exact ⟨pr, List.mem_append_left _ hpr, h1, h2, h3⟩
      · intro pr hpr hnum
        rcases List.mem_append.mp hpr with hpr | hpr
        · exact (hmax p hp).2 pr hpr hnum
        · simp at hpr
          subst hpr
          obtain ⟨pb, hpb, hb1, hb2, hb3⟩ := (hmax p hp).1
          have hplen : 15 ≤ p.content.length := by
            rw [hb3, List.length_take]
            omega
          have hm : min 12000 (contentOf text (a, e)).length ≤
              (contentOf text (a, e)).length := Nat.min_le_right _ _
          omega
    · intro pr hpr h15
      rcases List.mem_append.mp hpr with hpr | hpr
      · exact hcov pr hpr h15
      · simp at hpr
        subst hpr
        omega
  · rw [if_neg hlen]
    have htr : trimList (contentOf text (a, e)) = contentOf text (a, e) :=
      trimList_idem _
    rw [htr]
    exact c3inv_dedup text processed _ a e _ _ hseen hnd hmax hcov (by omega)

theorem processPairs_inv (text : List Char) (chs : List ChapterPos) :
    ∀ (pairs processed : List (ArtStart × Nat)) (st : ParseState),
      C3Inv text processed st →
      C3Inv text (processed ++ pairs) (processPairs text chs st pairs) := by
  intro pairs
  induction pairs with
  | nil =>
    intro processed st h
    rw [processPairs]
    simpa using h
  | cons pr rest ih =>
    intro processed st h
    obtain ⟨a, e⟩ := pr
    rw [processPairs]
    have happ : processed ++ (a, e) :: rest = (processed ++ [(a, e)]) ++ rest := by
      simp
    rw [happ]
    exact ih (processed ++ [(a, e)]) _ (c3inv_step text chs processed st a e h)

/-- Claim C3 (amended: the parser keeps the occurrence of a duplicated
article number whose trimmed segment is *longest* — the earliest among
equals — not the *last* occurrence; see the counterexample): under the
12 000-character cap, every stored provision's content is the segment of
an eligible (≥ 15 characters) occurrence of its article number, maximal in
length among all occurrences of that number. -/
theorem claim_C3 (text : List Char) (chs : List ChapterPos)
    (arts : List ArtStart)
    (hcap : ∀ pr ∈ withEnds text arts, (contentOf text pr).length ≤ 12000) :
    ∀ p ∈ parseProvisions text chs arts,
      (∃ pr ∈ withEnds text arts, pr.1.num = p.sectionLabel ∧
        15 ≤ (contentOf text pr).length ∧ p.content = contentOf text pr) ∧
      (∀ pr ∈ withEnds text arts, pr.1.num = p.sectionLabel →
        (contentOf text pr).length ≤ p.content.length) := by
  intro p hp
  have hinv := processPairs_inv text chs (withEnds text arts) [] initState
    (by
      refine ⟨rfl, List.nodup_nil, ?_, ?_⟩
      · intro q hq; cases hq
      · intro pr hpr; cases hpr)
  simp only [List.nil_append] at hinv
  rw [parseProvisions, parseLoop_eq_processPairs] at hp
  obtain ⟨hseen, hnd, hmax, hcov⟩ := hinv
  obtain ⟨⟨pr, hpr, h1, h2, h3⟩, hbound⟩ := hmax p hp
  refine ⟨⟨pr, hpr, h1, h2, ?_⟩, ?_⟩
  · rw [h3, List.take_of_length_le (hcap pr hpr)]
  · intro pr' hpr' hnum
    have hb := hbound pr' hpr' hnum
    have hc := hcap pr' hpr'
    omega

/-- Concrete text for the C3 counterexample: article 1 appears twice, the
first occurrence with the longer segment. -/
def c3Text : List Char :=
  str "Điều 1. " ++ List.replicate 20 'A' ++
    '\n' :: (str "Điều 1. " ++ List.replicate 16 'B')

/-- The two `articlePattern` matches on `c3Text`: at index 0 (match ends
at 8) and at index 28 (the newline; the match ends at 37). -/
def c3Arts : List ArtStart :=
  [⟨str "1", 0, 8⟩, ⟨str "1", 28, 37⟩]

/-- Counterexample to C3 as stated: the segment of the *last* occurrence
of article 1 is the 16 `B`s, but the parser stores the 20 `A`s of the
first occurrence, because it keeps the longer content. -/
theorem claim_C3_counterexample :
    ((parseProvisions c3Text [] c3Arts).map (·.content) =
      [List.replicate 20 'A']) ∧
    contentOf c3Text (⟨str "1", 28, 37⟩, c3Text.length) =
      List.replicate 16 'B' ∧
    List.replicate 20 'A' ≠ List.replicate 16 'B' := by
  decide

/-- Witness for (amended) C3: on `c3Text` the stored provision for article
1 is the first (longer) occurrence's segment, which is maximal. -/
theorem claim_C3_witness :
    (∃ pr ∈ withEnds c3Text c3Arts,
      pr.1.num = (⟨str "dieu1", none, str "1", List.replicate 20 'A',
        List.replicate 20 'A'⟩ : PProv).sectionLabel ∧
      15 ≤ (contentOf c3Text pr).length ∧
      (⟨str "dieu1", none, str "1", List.replicate 20 'A',
        List.replicate 20 'A'⟩ : PProv).content = contentOf c3Text pr) ∧
    (∀ pr ∈ withEnds c3Text c3Arts,
      pr.1.num = (⟨str "dieu1", none, str "1", List.replicate 20 'A',
        List.replicate 20 'A'⟩ : PProv).sectionLabel →
      (contentOf c3Text pr).length ≤
        (⟨str "dieu1", none, str "1", List.replicate 20 'A',
          List.replicate 20 'A'⟩ : PProv).content.length) :=
  claim_C3 c3Text [] c3Arts (by decide) _ (by decide)

/-! ### Claim C4: chapter assignment -/

/-- The last chapter heading (in match order) whose position precedes
`idx` — what the scan in lines 152-156 leaves in `currentChapter` when at
least one heading precedes the article. -/
def lastBefore (chs : List ChapterPos) (idx : Nat) : Option ChapterPos :=
  match chs with
  | [] => none
  | c :: cs =>
    if c.pos < idx then
      match lastBefore cs idx with
      | some x => some x
      | none => some c
    else lastBefore cs idx

/-- The chapter name the code's scan assigns for an article at `idx`,
ignoring the carried-over value. -/
def nearestName (chs : List ChapterPos) (idx : Nat) : Option (List Char) :=
  (lastBefore chs idx).map (·.name)

/-- Source position of a provision's assigned chapter heading, looked up
by name among the chapter matches. -/
def chapterHeadingPos (chs : List ChapterPos) (c : Option (List Char)) :
    Option Nat :=
  match c with
  | none => none
  | some nm => (chs.find? (fun cp => cp.name == nm)).map (·.pos)

/-- Order on optional positions: whenever the first is present, the second
is present and not smaller. -/
def optLE (o1 o2 : Option Nat) : Prop :=
  ∀ i, o1 = some i → ∃ j, o2 = some j ∧ i ≤ j

theorem chapterFold_eq (idx : Nat) :
    ∀ (chs : List ChapterPos) (prev : Option (List Char)),
      chapterFold chs idx prev =
        match lastBefore chs idx with
        | some cp => some cp.name
        | none => prev := by
  intro chs
  induction chs with
  | nil => intro prev; rfl
  | cons c cs ih =>
    intro prev
    show chapterFold cs idx (if c.pos < idx then some c.name else prev) = _
    by_cases hc : c.pos < idx
    · rw [if_pos hc, ih]
      show _ = (match (if c.pos < idx then
          match lastBefore cs idx with
          | some x => some x
          | none => some c
        else lastBefore cs idx) with
        | some cp => some cp.name
        | none => prev)
      rw [if_pos hc]
      cases lastBefore cs idx with
      | none => rfl
      | some x => rfl
    · rw [if_neg hc, ih]
      show _ = (match (if c.pos < idx then
          match lastBefore cs idx with
          | some x => some x
          | none => some c
        else lastBefore cs idx) with
        | some cp => some cp.name
        | none => prev)
      rw [if_neg hc]

theorem lastBefore_mem (idx : Nat) :
    ∀ (chs : List ChapterPos) (cp : ChapterPos),
      lastBefore chs idx = some cp → cp ∈ chs ∧ cp.pos < idx := by
  intro chs
  induction chs with
  | nil => intro cp h; cases h
  | cons c cs ih =>
    intro cp h
    rw [lastBefore] at h
    by_cases hc : c.pos < idx
    · rw [if_pos hc] at h
      cases hl : lastBefore cs idx with
      | none =>
        rw [hl] at h
        have : c = cp := Option.some.inj h
        subst this
        exact ⟨List.mem_cons_self _ _, hc⟩
      | some x =>
        rw [hl] at h
        obtain ⟨h1, h2⟩ := ih x hl
        have hx : x = cp := Option.some.inj h
        rw [← hx]
        exact ⟨List.mem_cons_of_mem _ h1, h2⟩
    · rw [if_neg hc] at h
      obtain ⟨h1, h2⟩ := ih cp h
      exact ⟨List.mem_cons_of_mem _ h1, h2⟩

theorem lastBefore_maximal (idx : Nat) :
    ∀ (chs : List ChapterPos), chs.Pairwise (fun a b => a.pos ≤ b.pos) →
      ∀ x ∈ chs, x.pos < idx →
      ∃ cp, lastBefore chs idx = some cp ∧ x.pos ≤ cp.pos := by
  intro chs
  induction chs with
  | nil => intro _ x hx; exact absurd hx (List.not_mem_nil x)
  | cons c cs ih =>
    intro hsorted x hx hxlt
    rw [List.pairwise_cons] at hsorted
    rw [lastBefore]
    rcases List.mem_cons.mp hx with hx | hx
    · subst hx
      rw [if_pos hxlt]
      cases hl : lastBefore cs idx with
      | none => exact ⟨x, rfl, le_refl _⟩
      | some y =>
        refine ⟨y, rfl, ?_⟩
        exact hsorted.1 y (lastBefore_mem idx cs y hl).1
    · obtain ⟨cp, hcp, hle⟩ := ih hsorted.2 x hx hxlt
      rw [hcp]
      by_cases hc : c.pos < idx
      · rw [if_pos hc]
        exact ⟨cp, rfl, hle⟩
      · rw [if_neg hc]
        exact ⟨cp, rfl, hle⟩

theorem lastBefore_mono (chs : List ChapterPos)
    (hsorted : chs.Pairwise (fun a b => a.pos ≤ b.pos))
    (idx idx' : Nat) (hle : idx ≤ idx') (cp : ChapterPos)
    (h : lastBefore chs idx = some cp) :
    ∃ cp', lastBefore chs idx' = some cp' ∧ cp.pos ≤ cp'.pos := by
  obtain ⟨hmem, hlt⟩ := lastBefore_mem idx chs cp h
  exact lastBefore_maximal idx' chs hsorted cp hmem (by omega)

theorem find?_name_nodup :
    ∀ (chs : List ChapterPos), ((chs.map (·.name)).Nodup) →
      ∀ cp ∈ chs, chs.find? (fun c => c.name == cp.name) = some cp := by
  intro chs
  induction chs with
  | nil => intro _ cp hcp; exact absurd hcp (List.not_mem_nil cp)
  | cons d ds ih =>
    intro hnd cp hcp
    rw [List.map_cons, List.nodup_cons] at hnd
    rw [List.find?]
    by_cases hname : d.name = cp.name
    · rw [show (d.name == cp.name) = true by simp [hname]]
      rcases List.mem_cons.mp hcp with hcp | hcp
      · rw [hcp]
      · exfalso
        apply hnd.1
        rw [hname]
        exact List.mem_map.mpr ⟨cp, hcp, rfl⟩
    · rw [show (d.name == cp.name) = false by simp [hname]]
      rcases List.mem_cons.mp hcp with hcp | hcp
      · exact absurd (by rw [hcp]) hname
      · exact ih hnd.2 cp hcp

theorem chapterHeadingPos_nearest (chs : List ChapterPos)
    (hnames : (chs.map (·.name)).Nodup) (idx : Nat) :
    chapterHeadingPos chs (nearestName chs idx) =
      (lastBefore chs idx).map (·.pos) := by
  rw [nearestName]
  cases hl : lastBefore chs idx with
  | none => rfl
  | some cp =>
    show chapterHeadingPos chs (some cp.name) = some cp.pos
    rw [chapterHeadingPos]
    rw [find?_name_nodup chs hnames cp (lastBefore_mem idx chs cp hl).1]
    rfl

theorem optLE_refl (o : Option Nat) : optLE o o :=
  fun i h => ⟨i, h, le_refl i⟩

theorem optLE_trans (o1 o2 o3 : Option Nat) (h12 : optLE o1 o2)
    (h23 : optLE o2 o3) : optLE o1 o3 := by
  intro i h1
  obtain ⟨j, hj, hij⟩ := h12 i h1
  obtain ⟨k, hk, hjk⟩ := h23 j hj
  exact ⟨k, hk, le_trans hij hjk⟩

theorem lastBefore_isSome_of_mem (idx : Nat) :
    ∀ (chs : List ChapterPos) (x : ChapterPos), x ∈ chs → x.pos < idx →
      lastBefore chs idx ≠ none := by
  intro chs
  induction chs with
  | nil => intro x hx; exact absurd hx (List.not_mem_nil x)
  | cons c cs ih =>
    intro x hx hlt
    rw [lastBefore]
    by_cases hc : c.pos < idx
    · rw [if_pos hc]
      cases lastBefore cs idx with
      | none => intro hcon; cases hcon
      | some y => intro hcon; cases hcon
    · rw [if_neg hc]
      rcases List.mem_cons.mp hx with hx | hx
      · subst hx; exact absurd hlt hc
      · exact ih x hx hlt

theorem lastBefore_pos_mono (chs : List ChapterPos)
    (hsorted : chs.Pairwise (fun a b => a.pos ≤ b.pos))
    (b idx : Nat) (hb : b ≤ idx) :
    optLE ((lastBefore chs b).map (·.pos)) ((lastBefore chs idx).map (·.pos)) := by
  intro i h
  cases hl : lastBefore chs b with
  | none => rw [hl] at h; cases h
  | some cp =>
    rw [hl] at h
    have hi : cp.pos = i := Option.some.inj h
    obtain ⟨cp', hcp', hle⟩ := lastBefore_mono chs hsorted b idx hb cp hl
    exact ⟨cp'.pos, by rw [hcp']; rfl, by omega⟩

theorem nearestName_carry (chs : List ChapterPos)
    (b idx : Nat) (hb : b ≤ idx) :
    chapterFold chs idx (nearestName chs b) = nearestName chs idx := by
  rw [chapterFold_eq]
  cases hl : lastBefore chs idx with
  | some cp =>
    show some cp.name = nearestName chs idx
    rw [nearestName, hl]
    rfl
  | none =>
    show nearestName chs b = nearestName chs idx
    cases hlb : lastBefore chs b with
    | none =>
      simp only [nearestName]
      rw [hl, hlb]
    | some cp =>
      exfalso
      obtain ⟨hmem, hlt⟩ := lastBefore_mem b chs cp hlb
      exact lastBefore_isSome_of_mem idx chs cp hmem (by omega) hl

/-- Main loop lemma for C4: with position-sorted chapter headings, sorted
article matches and non-recurring article numbers, the loop only appends
provisions, each assigned the nearest preceding chapter heading, and the
assigned chapter positions are monotone along the output. -/
theorem c4_loop (text : List Char) (chs : List ChapterPos)
    (hsorted : chs.Pairwise (fun a b => a.pos ≤ b.pos))
    (hnames : (chs.map (·.name)).Nodup) :
    ∀ (pairs : List (ArtStart × Nat)) (st : ParseState) (b : Nat),
      (∀ pr ∈ pairs, b ≤ pr.1.index) →
      pairs.Pairwise (fun x y => x.1.index ≤ y.1.index) →
      ((pairs.map (·.1.num)).Nodup) →
      (∀ pr ∈ pairs, ∀ p ∈ st.provisions, p.sectionLabel ≠ pr.1.num) →
      st.seen = seenOf st.provisions 0 →
      st.currentChapter = nearestName chs b →
      (∀ p ∈ st.provisions,
        optLE (chapterHeadingPos chs p.chapter)
          ((lastBefore chs b).map (·.pos))) →
      st.provisions.Pairwise (fun p q =>
        optLE (chapterHeadingPos chs p.chapter)
          (chapterHeadingPos chs q.chapter)) →
      ((processPairs text chs st pairs).provisions.Pairwise (fun p q =>
        optLE (chapterHeadingPos chs p.chapter)
          (chapterHeadingPos chs q.chapter))) ∧
      (∀ p ∈ (processPairs text chs st pairs).provisions,
        p ∈ st.provisions ∨
        ∃ pr ∈ pairs, p.sectionLabel = pr.1.num ∧
          p.chapter = nearestName chs pr.1.index) := by
  intro pairs
  induction pairs with
  | nil =>
    intro st b _ _ _ _ _ _ _ hpw
    exact ⟨hpw, fun p hp => Or.inl hp⟩
  | cons pr0 rest ih =>
    intro st b hbound hidx hnums hdisj hseen hcur hopt hpw
    obtain ⟨a, e⟩ := pr0
    rw [processPairs]
    rw [List.pairwise_cons] at hidx
    rw [List.map_cons, List.nodup_cons] at hnums
    have hba : b ≤ a.index := hbound (a, e) (List.mem_cons_self _ _)
    have hcur' : chapterFold chs a.index st.currentChapter =
        nearestName chs a.index := by
      rw [hcur]
      exact nearestName_carry chs b a.index hba
    have hboundmono : optLE ((lastBefore chs b).map (·.pos))
        ((lastBefore chs a.index).map (·.pos)) :=
      lastBefore_pos_mono chs hsorted b a.index hba
    rw [processArticle_eq]
    by_cases hlen : (contentOf text (a, e)).length < 15
    · rw [if_pos hlen]
      have hres := ih
        (ParseState.mk st.provisions st.seen
          (chapterFold chs a.index st.currentChapter)) a.index
        (fun pr hpr => hidx.1 pr hpr)
        hidx.2 hnums.2
        (fun pr hpr p hp => hdisj pr (List.mem_cons_of_mem _ hpr) p hp)
        hseen hcur'
        (fun p hp => optLE_trans _ _ _ (hopt p hp) hboundmono)
        hpw
      refine ⟨hres.1, ?_⟩
      intro p hp
      rcases hres.2 p hp with hm | hm
      · exact Or.inl hm
      · obtain ⟨pr, hpr, h1, h2⟩ := hm
        exact Or.inr ⟨pr, List.mem_cons_of_mem _ hpr, h1, h2⟩
    · rw [if_neg hlen]
      have htr : trimList (contentOf text (a, e)) = contentOf text (a, e) :=
        trimList_idem _
      rw [htr]
      have hlen10 : (contentOf text (a, e)).length > 10 := by omega
      have habs : ∀ p ∈ st.provisions, p.sectionLabel ≠ a.num :=
        hdisj (a, e) (List.mem_cons_self _ _)
      have hlk : lookupN st.seen a.num = none := by
        rw [hseen]
        exact (lookupN_seenOf_none a.num st.provisions 0).mpr habs
      have hstep : dedupInsert
          (ParseState.mk st.provisions st.seen
            (chapterFold chs a.index st.currentChapter))
          a.num (str "dieu" ++ a.num)
          (chapterFold chs a.index st.currentChapter)
          (deriveTitle (contentOf text (a, e)))
          (contentOf text (a, e)) =
          ParseState.mk
            (st.provisions ++
              [PProv.mk (str "dieu" ++ a.num)
                (chapterFold chs a.index st.currentChapter) a.num
                (deriveTitle (contentOf text (a, e)))
                ((contentOf text (a, e)).take 12000)])
            (st.seen ++ [(a.num, st.provisions.length)])
            (chapterFold chs a.index st.currentChapter) := by
        simp only [dedupInsert, hlen10, if_true, hlk]
      rw [hstep]
      have hres := ih
        (ParseState.mk
          (st.provisions ++
            [PProv.mk (str "dieu" ++ a.num)
              (chapterFold chs a.index st.currentChapter) a.num
              (deriveTitle (contentOf text (a, e)))
              ((contentOf text (a, e)).take 12000)])
          (st.seen ++ [(a.num, st.provisions.length)])
          (chapterFold chs a.index st.currentChapter)) a.index
        (fun pr hpr => hidx.1 pr hpr)
        hidx.2 hnums.2
        (by
          intro pr hpr p hp
          rcases List.mem_append.mp hp with hp | hp
          · exact hdisj pr (List.mem_cons_of_mem _ hpr) p hp
          · simp at hp
            subst hp
            show a.num ≠ pr.1.num
            intro hcon
            exact hnums.1 (List.mem_map.mpr ⟨pr, hpr, hcon.symm⟩))
        (by
          show st.seen ++ [(a.num, st.provisions.length)] = _
          rw [hseen, seenOf_append]
          simp)
        hcur'
        (by
          intro p hp
          rcases List.mem_append.mp hp with hp | hp
          · exact optLE_trans _ _ _ (hopt p hp) hboundmono
          · simp at hp
            subst hp
            show optLE (chapterHeadingPos chs
              (chapterFold chs a.index st.currentChapter)) _
            rw [hcur', chapterHeadingPos_nearest chs hnames a.index]
            exact optLE_refl _)
        (by
          show (st.provisions ++ [_]).Pairwise _
          rw [List.pairwise_append]
          refine ⟨hpw, List.pairwise_singleton _ _, ?_⟩
          intro p hp q hq
          simp at hq
          subst hq
          show optLE _ (chapterHeadingPos chs
            (chapterFold chs a.index st.currentChapter))
          rw [hcur', chapterHeadingPos_nearest chs hnames a.index]
          exact optLE_trans _ _ _ (hopt p hp) hboundmono)
      refine ⟨hres.1, ?_⟩
      intro p hp
      rcases hres.2 p hp with hm | hm
      · rcases List.mem_append.mp hm with hm | hm
        · exact Or.inl hm
        · simp at hm
          subst hm
          refine Or.inr ⟨(a, e), List.mem_cons_self _ _, rfl, ?_⟩
          exact hcur'
      · obtain ⟨pr, hpr, h1, h2⟩ := hm
        exact Or.inr ⟨pr, List.mem_cons_of_mem _ hpr, h1, h2⟩

theorem withEnds_fst (text : List Char) :
    ∀ (arts : List ArtStart), (withEnds text arts).map (·.1) = arts := by
  intro arts
  induction arts with
  | nil => rfl
  | cons a rest ih =>
    show a :: (withEnds text rest).map (·.1) = a :: rest
    rw [ih]

theorem lastBefore_zero : ∀ (chs : List ChapterPos), lastBefore chs 0 = none := by
  intro chs
  induction chs with
  | nil => rfl
  | cons c cs ih =>
    rw [lastBefore, if_neg (by omega), ih]

/-- Claim C4 (amended: monotonicity holds when no article number recurs in
the match list; with a recurring number the in-place replacement can break
it, see the counterexample): under position-sorted chapter matches with
distinct names and index-sorted article matches with distinct numbers,
every provision's chapter is the nearest chapter heading preceding its
article marker, and the assigned chapter-heading positions are monotone
along the returned provision list. -/
theorem claim_C4 (text : List Char) (chs : List ChapterPos)
    (arts : List ArtStart)
    (hsorted : chs.Pairwise (fun a b => a.pos ≤ b.pos))
    (hnames : (chs.map (·.name)).Nodup)
    (hidx : arts.Pairwise (fun x y => x.index ≤ y.index))
    (hnums : (arts.map (·.num)).Nodup) :
    (∀ p ∈ parseProvisions text chs arts,
      ∃ a ∈ arts, p.sectionLabel = a.num ∧
        p.chapter = nearestName chs a.index) ∧
    (parseProvisions text chs arts).Pairwise (fun p q =>
      optLE (chapterHeadingPos chs p.chapter)
        (chapterHeadingPos chs q.chapter)) := by
  have hpairs_idx : (withEnds text arts).Pairwise
      (fun x y => x.1.index ≤ y.1.index) := by
    have h1 : ((withEnds text arts).map (·.1)).Pairwise
        (fun x y => x.index ≤ y.index) := by
      rw [withEnds_fst]
      exact hidx
    exact (List.pairwise_map (R := fun (x y : ArtStart) => x.index ≤ y.index)).mp h1
  have hpairs_nums : ((withEnds text arts).map (·.1.num)).Nodup := by
    have heq : (withEnds text arts).map (·.1.num) =
        ((withEnds text arts).map (·.1)).map (·.num) := by
      rw [List.map_map]
      rfl
    rw [heq, withEnds_fst]
    exact hnums
  have hres := c4_loop text chs hsorted hnames (withEnds text arts) initState 0
    (fun pr _ => Nat.zero_le _)
    hpairs_idx hpairs_nums
    (fun pr _ p hp => absurd hp (List.not_mem_nil p))
    rfl
    (by rw [nearestName, lastBefore_zero]; rfl)
    (fun p hp => absurd hp (List.not_mem_nil p))
    List.Pairwise.nil
  rw [parseProvisions, parseLoop_eq_processPairs]
  refine ⟨?_, hres.1⟩
  intro p hp
  rcases hres.2 p hp with hm | hm
  · exact absurd hm (List.not_mem_nil p)
  · obtain ⟨pr, hpr, h1, h2⟩ := hm
    refine ⟨pr.1, ?_, h1, h2⟩
    rw [← withEnds_fst text arts]
    exact List.mem_map.mpr ⟨pr, hpr, rfl⟩

/-- Concrete text for the C4 counterexample: chapter I, article 1 (short),
article 2, chapter II, then article 1 again with longer content.  The
replacement gives the first stored provision chapter II while the second
keeps chapter I. -/
def c4Text : List Char :=
  str "Chương I" ++ ('\n' :: (str "Điều 1. " ++ List.replicate 16 'A')) ++
  ('\n' :: (str "Điều 2. " ++ List.replicate 16 'C')) ++
  ('\n' :: str "Chương II") ++
  ('\n' :: (str "Điều 1. " ++ List.replicate 20 'B'))

/-- The two `chapterPattern` matches on `c4Text`. -/
def c4Chs : List ChapterPos :=
  [⟨0, str "Chương I"⟩, ⟨58, str "Chương II"⟩]

/-- The three `articlePattern` matches on `c4Text` (article 1 recurs). -/
def c4Arts : List ArtStart :=
  [⟨str "1", 8, 17⟩, ⟨str "2", 33, 42⟩, ⟨str "1", 68, 77⟩]

/-- Counterexample to C4 as stated: the returned provision list has
chapter positions 58 then 0, so the assigned chapter position of the
earlier provision exceeds that of the later one. -/
theorem claim_C4_counterexample :
    ((parseProvisions c4Text c4Chs c4Arts).map (·.chapter) =
      [some (str "Chương II"), some (str "Chương I")]) ∧
    chapterHeadingPos c4Chs (some (str "Chương II")) = some 58 ∧
    chapterHeadingPos c4Chs (some (str "Chương I")) = some 0 ∧
    ¬ (parseProvisions c4Text c4Chs c4Arts).Pairwise (fun p q =>
      optLE (chapterHeadingPos c4Chs p.chapter)
        (chapterHeadingPos c4Chs q.chapter)) := by
  refine ⟨by decide, by decide, by decide, ?_⟩
  intro hpw
  have hlist : parseProvisions c4Text c4Chs c4Arts =
      [PProv.mk (str "dieu1") (some (str "Chương II")) (str "1")
        (List.replicate 20 'B') (List.replicate 20 'B'),
       PProv.mk (str "dieu2") (some (str "Chương I")) (str "2")
        (List.replicate 16 'C')
        (List.replicate 16 'C' ++ ('\n' :: str "Chương II"))] := by
    decide
  rw [hlist] at hpw
  have h := (List.pairwise_cons.mp hpw).1 _ (List.mem_cons_self _ _)
  obtain ⟨j, hj, hle⟩ := h 58 (by decide)
  have hj0 : chapterHeadingPos c4Chs
      (PProv.mk (str "dieu2") (some (str "Chương I")) (str "2")
        (List.replicate 16 'C')
        (List.replicate 16 'C' ++ ('\n' :: str "Chương II"))).chapter =
      some 0 := by decide
  have hj' : (0 : Nat) = j := Option.some.inj (hj0.symm.trans hj)
  omega

/-- Witness for (amended) C4 on `c4Text` with the duplicate article
removed: both provisions get their nearest preceding chapter and the
positions are monotone. -/
theorem claim_C4_witness :
    (∀ p ∈ parseProvisions c4Text c4Chs [⟨str "1", 8, 17⟩, ⟨str "2", 33, 42⟩],
      ∃ a ∈ [(⟨str "1", 8, 17⟩ : ArtStart), ⟨str "2", 33, 42⟩],
        p.sectionLabel = a.num ∧ p.chapter = nearestName c4Chs a.index) ∧
    (parseProvisions c4Text c4Chs
      [⟨str "1", 8, 17⟩, ⟨str "2", 33, 42⟩]).Pairwise (fun p q =>
      optLE (chapterHeadingPos c4Chs p.chapter)
        (chapterHeadingPos c4Chs q.chapter)) :=
  claim_C4 c4Text c4Chs [⟨str "1", 8, 17⟩, ⟨str "2", 33, 42⟩]
    (by decide) (by decide) (by decide) (by decide)

/-! ### Claim C5: `resolveDocumentId` (`src/utils/statute-id.ts`) -/

/-- Document status values (`legal_documents.status`). -/
inductive DocStatus where
  | in_force
  | amended
  | repealed
  | not_yet_in_force
  deriving DecidableEq, Repr

/-- A `legal_documents` row, with the columns `resolveDocumentId` and
`validateCitationTool` consult.  Rows are listed in rowid (insertion)
order; `.get` on an un-ordered SELECT returns the first row in that
order. -/
structure Document where
  id : List Char
  title : List Char
  title_en : Option (List Char) := none
  short_name : Option (List Char) := none
  status : DocStatus := DocStatus.in_force
  deriving DecidableEq, Repr

/-- ASCII lower-casing, as SQLite `LOWER` and the default (ASCII-only)
case folding of `LIKE` perform. -/
def asciiLower (c : Char) : Char :=
  if c.toNat ≥ 65 ∧ c.toNat ≤ 90 then Char.ofNat (c.toNat + 32) else c

/-- SQLite `LIKE` matching (default ASCII-case-insensitive): `%` matches
any sequence, `_` any single character.  Fuelled so that it evaluates;
each step consumes pattern or text, so `|pattern| + |text| + 1` fuel
always suffices. -/
def likeAux : Nat → List Char → List Char → Bool
  | 0, _, _ => false
  | _ + 1, [], t => t.isEmpty
  | fuel + 1, c :: ps, t =>
    if c = '%' then
      likeAux fuel ps t ||
        (match t with
         | [] => false
         | _ :: ts => likeAux fuel (c :: ps) ts)
    else if c = '_' then
      (match t with
       | [] => false
       | _ :: ts => likeAux fuel ps ts)
    else
      (match t with
       | [] => false
       | d :: ts => asciiLower c == asciiLower d && likeAux fuel ps ts)

def likeMatch (pattern text : List Char) : Bool :=
  likeAux (pattern.length + text.length + 1) pattern text

def lowerList (l : List Char) : List Char :=
  l.map asciiLower

/-- `resolveDocumentId` from `src/utils/statute-id.ts`: trim; empty input
resolves to nothing; exact id equality first; then `LIKE '%input%'`
against title/short_name/title_en; then the same with `LOWER` applied to
both sides.  `NULL LIKE x` is not a match. -/
def resolveDocumentId (docs : List Document) (input : List Char) :
    Option (List Char) :=
  let trimmed := trimList input
  if trimmed = [] then none
  else
    match docs.find? (fun d => d.id == trimmed) with
    | some d => some d.id
    | none =>
      let pat := '%' :: (trimmed ++ ['%'])
      match docs.find? (fun d =>
        likeMatch pat d.title ||
        (match d.short_name with
         | some s => likeMatch pat s
         | none => false) ||
        (match d.title_en with
         | some s => likeMatch pat s
         | none => false)) with
      | some d => some d.id
      | none =>
        match docs.find? (fun d =>
          likeMatch (lowerList pat) (lowerList d.title) ||
          (match d.short_name with
           | some s => likeMatch (lowerList pat) (lowerList s)
           | none => false) ||
          (match d.title_en with
           | some s => likeMatch (lowerList pat) (lowerList s)
           | none => false)) with
        | some d => some d.id
        | none => none

/-- Claim C5 (amended: the input must trim to a *nonempty* existing id;
for a document whose id is the empty string the resolver returns nothing,
see the counterexample): exact-id matches take precedence — whenever the
trimmed input equals an existing document id, that id is returned, before
any substring matching is consulted. -/
theorem claim_C5 (docs : List Document) (input : List Char)
    (hne : trimList input ≠ [])
    (hex : ∃ d ∈ docs, d.id = trimList input) :
    resolveDocumentId docs input = some (trimList input) := by
  obtain ⟨d, hd, hid⟩ := hex
  rw [resolveDocumentId]
  simp only [if_neg hne]
  have hsome : (docs.find? (fun d => d.id == trimList input)).isSome := by
    rw [List.find?_isSome]
    exact ⟨d, hd, by simp [hid]⟩
  cases hfind : docs.find? (fun d => d.id == trimList input) with
  | none => rw [hfind] at hsome; cases hsome
  | some d' =>
    have hd' := List.find?_some hfind
    simp at hd'
    simp only [hfind]
    rw [hd']

/-- Counterexample to C5 as stated: a database containing a document whose
id is the empty string, and the empty input — the input trims to an
existing id, but the resolver returns nothing. -/
theorem claim_C5_counterexample :
    resolveDocumentId [⟨[], [], none, none, DocStatus.in_force⟩] [] = none ∧
    (⟨[], [], none, none, DocStatus.in_force⟩ : Document).id = trimList [] := by
  constructor
  · rfl
  · rfl

/-- Witness for (amended) C5: `privacy-act-1988` resolves to itself when
present, even though another document's title contains it. -/
theorem claim_C5_witness :
    resolveDocumentId
      [⟨str "some-other-act", str "About privacy-act-1988 overview",
        none, none, DocStatus.in_force⟩,
       ⟨str "privacy-act-1988", str "Privacy Act 1988",
        none, none, DocStatus.in_force⟩]
      (str "privacy-act-1988") =
      some (trimList (str "privacy-act-1988")) :=
  claim_C5 _ _ (by decide)
    ⟨⟨str "privacy-act-1988", str "Privacy Act 1988",
        none, none, DocStatus.in_force⟩, by decide, by decide⟩

/-! ### Claim C10: `sanitizeFtsInput` (`src/utils/fts-query.ts`) -/

/-- The characters stripped by `sanitizeFtsInput`:
`/['"(){}[\]^~*:]/`. -/
def isFtsSpecial (c : Char) : Bool :=
  c == '\'' || c == '"' || c == '(' || c == ')' || c == '\x7b' ||
  c == '\x7d' || c == '[' || c == ']' || c == '^' || c == '~' ||
  c == '*' || c == ':'

/-- `sanitizeFtsInput`: replace FTS5 special characters by spaces,
collapse whitespace runs, trim. -/
def sanitizeFtsInput (l : List Char) : List Char :=
  trimList (collapseRuns (l.map (fun c => if isFtsSpecial c then ' ' else c)))

theorem mem_collapseAux (c : Char) :
    ∀ (flag : Bool) (l : List Char), c ∈ collapseAux flag l →
      c = ' ' ∨ c ∈ l := by
  intro flag l
  induction l generalizing flag with
  | nil => intro h; cases h
  | cons a as ih =>
    intro h
    rw [collapseAux] at h
    by_cases ha : isWS a
    · rw [if_pos ha] at h
      by_cases hf : flag
      · rw [if_pos hf] at h
        rcases ih true h with h | h
        · exact Or.inl h
        · exact Or.inr (List.mem_cons_of_mem _ h)
      · rw [if_neg hf] at h
        rcases List.mem_cons.mp h with h | h
        · exact Or.inl h
        · rcases ih true h with h | h
          · exact Or.inl h
          · exact Or.inr (List.mem_cons_of_mem _ h)
    · rw [if_neg ha] at h
      rcases List.mem_cons.mp h with h | h
      · exact Or.inr (by rw [h]; exact List.mem_cons_self _ _)
      · rcases ih false h with h | h
        · exact Or.inl h
        · exact Or.inr (List.mem_cons_of_mem _ h)

theorem mem_trimList (c : Char) (l : List Char) (h : c ∈ trimList l) :
    c ∈ l := by
  rw [trimList] at h
  rw [List.mem_reverse] at h
  obtain ⟨u, hu⟩ := dropWhile_exists_front isWS (l.dropWhile isWS).reverse
  have h2 : c ∈ (l.dropWhile isWS).reverse := by
    rw [← hu]
    exact List.mem_append_right u h
  rw [List.mem_reverse] at h2
  obtain ⟨w, hw⟩ := dropWhile_exists_front isWS l
  rw [← hw]
  exact List.mem_append_right w h2

theorem collapseAux_head?_true (c : Char) :
    ∀ (l : List Char), (collapseAux true l).head? = some c →
      isWS c = false := by
  intro l
  induction l with
  | nil => intro h; cases h
  | cons a as ih =>
    intro h
    rw [collapseAux] at h
    by_cases ha : isWS a
    · rw [if_pos ha, if_pos rfl] at h
      exact ih h
    · rw [if_neg ha] at h
      have : a = c := Option.some.inj h
      rw [← this]
      exact Bool.eq_false_iff.mpr ha

theorem collapseAux_chain' :
    ∀ (l : List Char) (flag : Bool),
      (collapseAux flag l).Chain'
        (fun a b => ¬(isWS a = true ∧ isWS b = true)) := by
  intro l
  induction l with
  | nil => intro flag; exact List.chain'_nil
  | cons a as ih =>
    intro flag
    rw [collapseAux]
    by_cases ha : isWS a
    · rw [if_pos ha]
      by_cases hf : flag
      · rw [if_pos hf]
        exact ih true
      · rw [if_neg hf]
        rw [List.chain'_cons']
        refine ⟨?_, ih true⟩
        intro y hy
        intro hcon
        rw [collapseAux_head?_true y as hy] at hcon
        cases hcon.2
    · rw [if_neg ha]
      rw [List.chain'_cons']
      refine ⟨?_, ih false⟩
      intro y _
      intro hcon
      rw [Bool.eq_false_iff.mpr ha] at hcon
      cases hcon.1

theorem chain'_trimList (l : List Char)
    (h : l.Chain' (fun a b => ¬(isWS a = true ∧ isWS b = true))) :
    (trimList l).Chain' (fun a b => ¬(isWS a = true ∧ isWS b = true)) := by
  rw [trimList]
  have hsymm : ∀ (m : List Char),
      m.Chain' (fun a b => ¬(isWS a = true ∧ isWS b = true)) →
      m.reverse.Chain' (fun a b => ¬(isWS a = true ∧ isWS b = true)) := by
    intro m hm
    rw [List.chain'_reverse]
    refine hm.imp ?_
    intro a b hab hcon
    exact hab ⟨hcon.2, hcon.1⟩
  have hdrop : ∀ (m : List Char),
      m.Chain' (fun a b => ¬(isWS a = true ∧ isWS b = true)) →
      (m.dropWhile isWS).Chain' (fun a b => ¬(isWS a = true ∧ isWS b = true)) := by
    intro m hm
    obtain ⟨u, hu⟩ := dropWhile_exists_front isWS m
    rw [← hu] at hm
    exact (List.chain'_append.mp hm).2.1
  exact hsymm _ (hdrop _ (hsymm _ (hdrop _ h)))

/-- Claim C10: the output of `sanitizeFtsInput` contains no FTS5 special
character, no two consecutive whitespace characters, and no leading or
trailing whitespace, so sanitized user text cannot inject FTS5 syntax. -/
theorem claim_C10 (s : List Char) :
    ((sanitizeFtsInput s).all (fun c => !(isFtsSpecial c))) = true ∧
    (sanitizeFtsInput s).Chain'
      (fun a b => ¬(isWS a = true ∧ isWS b = true)) ∧
    ((sanitizeFtsInput s).head?.all (fun c => !(isWS c))) = true ∧
    ((sanitizeFtsInput s).getLast?.all (fun c => !(isWS c))) = true := by
  refine ⟨?_, ?_, ?_, ?_⟩
  · rw [List.all_eq_true]
    intro c hc
    have h1 := mem_trimList c _ hc
    rcases mem_collapseAux c false _ h1 with h | h
    · rw [h]; rfl
    · obtain ⟨d, _, hd⟩ := List.mem_map.mp h
      by_cases hs : isFtsSpecial d
      · rw [if_pos hs] at hd; rw [← hd]; rfl
      · rw [if_neg hs] at hd
        rw [← hd]
        exact (Bool.not_eq_true' _).mpr (Bool.eq_false_iff.mpr hs)
  · exact chain'_trimList _ (collapseAux_chain' _ false)
  · cases hh : (sanitizeFtsInput s).head? with
    | none => rfl
    | some c =>
      rw [sanitizeFtsInput, trimList] at hh
      have h2 := backTrim_head? isWS _ c hh
      have h3 := dropWhile_head?_not isWS _ c h2
      have hall : Option.all (fun c => !isWS c) (some c) = (!(isWS c)) := rfl
      rw [hall, h3]
      rfl
  · cases hh : (sanitizeFtsInput s).getLast? with
    | none => rfl
    | some c =>
      rw [sanitizeFtsInput, trimList, List.getLast?_reverse] at hh
      have h3 := dropWhile_head?_not isWS _ c hh
      have hall : Option.all (fun c => !isWS c) (some c) = (!(isWS c)) := rfl
      rw [hall, h3]
      rfl

/-! ### Claim C9: FTS query variants and the fallback ladder -/

/-- JS `s.split(/\s+/)`: separators are maximal whitespace runs; a
leading run produces a leading empty element, a trailing run a trailing
one.  The flag records whether the previous character was whitespace. -/
def splitWSAux : Bool → List Char → List Char → List (List Char)
  | _, cur, [] => [cur.reverse]
  | prevWS, cur, c :: rest =>
    if isWS c then
      if prevWS then splitWSAux true cur rest
      else cur.reverse :: splitWSAux true [] rest
    else splitWSAux false (c :: cur) rest

def jsSplitWS (l : List Char) : List (List Char) :=
  splitWSAux false [] l

/-- JS `Array.prototype.join` with a separator. -/
def joinSep (sep : List Char) : List (List Char) → List Char
  | [] => []
  | [t] => t
  | t :: rest => t ++ sep ++ joinSep sep rest

/-- `const terms = sanitized.split(/\s+/).filter(t => t.length > 0)`. -/
def ftsTerms (sanitized : List Char) : List (List Char) :=
  (jsSplitWS sanitized).filter (fun t => t.length > 0)

/-- `buildFtsQueryVariants` from `src/utils/fts-query.ts`: exact phrase
(for multi-term queries), all-terms AND, then prefix-on-last-term. -/
def buildFtsQueryVariants (sanitized : List Char) : List (List Char) :=
  if sanitized = [] ∨ trimList sanitized = [] then []
  else
    if ftsTerms sanitized = [] then []
    else
      (if (ftsTerms sanitized).length > 1 then
        ['"' :: (joinSep [' '] (ftsTerms sanitized) ++ ['"'])]
      else []) ++
      [joinSep (str " AND ") (ftsTerms sanitized)] ++
      (if (ftsTerms sanitized).length = 1 ∧
          3 ≤ ((ftsTerms sanitized).headD []).length then
        [(ftsTerms sanitized).headD [] ++ ['*']]
      else if (ftsTerms sanitized).length > 1 then
        [joinSep (str " AND ") ((ftsTerms sanitized).dropLast ++
          [(ftsTerms sanitized).getLastD [] ++ ['*']])]
      else [])

/-- The variant loop of `buildLegalStance`
(`src/tools/build-legal-stance.ts`, lines 36-68): try each FTS query in
order; a thrown query (`exec` returns `none`) falls through; the first
non-empty row set is returned; otherwise the empty result. -/
def buildLegalStanceLoop {α : Type} (exec : List Char → Option (List α)) :
    List (List Char) → List α
  | [] => []
  | v :: rest =>
    match exec v with
    | some rows => if rows.isEmpty then buildLegalStanceLoop exec rest else rows
    | none => buildLegalStanceLoop exec rest

/-- `buildLegalStance`: empty/whitespace queries short-circuit; otherwise
the sanitized query's variants are tried in order. -/
def buildLegalStance {α : Type} (exec : List Char → Option (List α))
    (query : List Char) : List α :=
  if trimList query = [] then []
  else buildLegalStanceLoop exec (buildFtsQueryVariants (sanitizeFtsInput query))

theorem loop_cons_none {α : Type} (exec : List Char → Option (List α))
    (v : List Char) (rest : List (List Char)) (hv : exec v = none) :
    buildLegalStanceLoop exec (v :: rest) = buildLegalStanceLoop exec rest := by
  rw [buildLegalStanceLoop, hv]

theorem loop_cons_empty {α : Type} (exec : List Char → Option (List α))
    (v : List Char) (rest : List (List Char)) (rows : List α)
    (hv : exec v = some rows) (hr : rows.isEmpty = true) :
    buildLegalStanceLoop exec (v :: rest) = buildLegalStanceLoop exec rest := by
  rw [buildLegalStanceLoop, hv]
  exact if_pos hr

theorem loop_cons_hit {α : Type} (exec : List Char → Option (List α))
    (v : List Char) (rest : List (List Char)) (rows : List α)
    (hv : exec v = some rows) (hr : rows.isEmpty = false) :
    buildLegalStanceLoop exec (v :: rest) = rows := by
  rw [buildLegalStanceLoop, hv]
  exact if_neg (by simp [hr])

theorem buildLegalStanceLoop_first_hit {α : Type}
    (exec : List Char → Option (List α)) :
    ∀ (vs : List (List Char)),
      (buildLegalStanceLoop exec vs = [] ∧
        ∀ v ∈ vs, (exec v).getD [] = []) ∨
      (∃ k, ∃ hk : k < vs.length,
        buildLegalStanceLoop exec vs = (exec (vs.get ⟨k, hk⟩)).getD [] ∧
        buildLegalStanceLoop exec vs ≠ [] ∧
        ∀ j, ∀ hj : j < vs.length, j < k → (exec (vs.get ⟨j, hj⟩)).getD [] = []) := by
  intro vs
  induction vs with
  | nil => exact Or.inl ⟨rfl, fun v hv => absurd hv (List.not_mem_nil v)⟩
  | cons v rest ih =>
    cases hv : exec v with
    | none =>
      rw [loop_cons_none exec v rest hv]
      rcases ih with ⟨h1, h2⟩ | ⟨k, hk, h1, h2, h3⟩
      · refine Or.inl ⟨h1, ?_⟩
        intro w hw
        rcases List.mem_cons.mp hw with hw | hw
        · rw [hw, hv]; rfl
        · exact h2 w hw
      · refine Or.inr ⟨k + 1, by simpa using hk, h1, h2, ?_⟩
        intro j hj hjk
        cases j with
        | zero => show (exec v).getD [] = []; rw [hv]; rfl
        | succ j' =>
          have hj' : j' < rest.length := by simpa using hj
          exact h3 j' hj' (by omega)
    | some rows =>
      by_cases hrows : rows.isEmpty
      · rw [loop_cons_empty exec v rest rows hv hrows]
        have hre : rows = [] := List.isEmpty_iff.mp hrows
        rcases ih with ⟨h1, h2⟩ | ⟨k, hk, h1, h2, h3⟩
        · refine Or.inl ⟨h1, ?_⟩
          intro w hw
          rcases List.mem_cons.mp hw with hw | hw
          · rw [hw, hv, hre]; rfl
          · exact h2 w hw
        · refine Or.inr ⟨k + 1, by simpa using hk, h1, h2, ?_⟩
          intro j hj hjk
          cases j with
          | zero => show (exec v).getD [] = []; rw [hv, hre]; rfl
          | succ j' =>
            have hj' : j' < rest.length := by simpa using hj
            exact h3 j' hj' (by omega)
      · rw [loop_cons_hit exec v rest rows hv (Bool.eq_false_iff.mpr hrows)]
        refine Or.inr ⟨0, by simp, ?_, ?_, ?_⟩
        · show rows = (exec v).getD []
          rw [hv]
          rfl
        · intro hc
          rw [hc] at hrows
          exact hrows rfl
        · intro j hj hjk
          omega

/-- Claim C9: for a multi-term sanitized query the variants are exactly
[exact phrase, all-terms AND, AND with prefix wildcard on the last term]
in that order, and `buildLegalStance` returns the rows of the earliest
variant whose query yields a non-empty result (and `[]` when none does;
a variant whose execution throws is skipped). -/
theorem claim_C9 {α : Type} (exec : List Char → Option (List α))
    (query : List Char) (hq : trimList query ≠ [])
    (hterms : 2 ≤ (ftsTerms (sanitizeFtsInput query)).length) :
    (buildFtsQueryVariants (sanitizeFtsInput query) =
      ['"' :: (joinSep [' '] (ftsTerms (sanitizeFtsInput query)) ++ ['"']),
       joinSep (str " AND ") (ftsTerms (sanitizeFtsInput query)),
       joinSep (str " AND ")
         ((ftsTerms (sanitizeFtsInput query)).dropLast ++
          [(ftsTerms (sanitizeFtsInput query)).getLastD [] ++ ['*']])]) ∧
    ((buildLegalStance exec query = [] ∧
       ∀ v ∈ buildFtsQueryVariants (sanitizeFtsInput query),
         (exec v).getD [] = []) ∨
     (∃ k, ∃ hk : k < (buildFtsQueryVariants (sanitizeFtsInput query)).length,
       buildLegalStance exec query =
         (exec ((buildFtsQueryVariants (sanitizeFtsInput query)).get
           ⟨k, hk⟩)).getD [] ∧
       buildLegalStance exec query ≠ [] ∧
       ∀ j, ∀ hj : j < (buildFtsQueryVariants (sanitizeFtsInput query)).length,
         j < k →
         (exec ((buildFtsQueryVariants (sanitizeFtsInput query)).get
           ⟨j, hj⟩)).getD [] = [])) := by
  constructor
  · rw [buildFtsQueryVariants]
    have hsan_ne : sanitizeFtsInput query ≠ [] := by
      intro h
      revert hterms
      rw [ftsTerms, h]
      decide
    have htrim : trimList (sanitizeFtsInput query) = sanitizeFtsInput query := by
      rw [sanitizeFtsInput]
      exact trimList_idem _
    rw [if_neg (by
      intro hor
      rcases hor with h | h
      · exact hsan_ne h
      · rw [htrim] at h
        exact hsan_ne h)]
    have hne : ftsTerms (sanitizeFtsInput query) ≠ [] := by
      intro h
      rw [h] at hterms
      exact absurd hterms (by decide)
    rw [if_neg hne]
    have hgt : (ftsTerms (sanitizeFtsInput query)).length > 1 := by omega
    rw [if_pos hgt]
    rw [if_neg (by
      intro hand
      omega)]
    rw [if_pos hgt]
    rfl
  · rw [buildLegalStance, if_neg hq]
    exact buildLegalStanceLoop_first_hit exec _

/-- Witness for C9 on the query `data protection`, with an FTS engine
that returns a row only for the second (AND) variant. -/
theorem claim_C9_witness :
    (buildFtsQueryVariants (sanitizeFtsInput (str "data protection")) =
      ['"' :: (joinSep [' ']
          (ftsTerms (sanitizeFtsInput (str "data protection"))) ++ ['"']),
       joinSep (str " AND ") (ftsTerms (sanitizeFtsInput (str "data protection"))),
       joinSep (str " AND ")
         ((ftsTerms (sanitizeFtsInput (str "data protection"))).dropLast ++
          [(ftsTerms (sanitizeFtsInput (str "data protection"))).getLastD []
            ++ ['*']])]) ∧
    ((buildLegalStance
        (fun v => if v = str "data AND protection" then some [1] else some ([] : List Nat))
        (str "data protection") = [] ∧
       ∀ v ∈ buildFtsQueryVariants (sanitizeFtsInput (str "data protection")),
         ((fun v => if v = str "data AND protection" then some [1]
            else some ([] : List Nat)) v).getD [] = []) ∨
     (∃ k, ∃ hk : k <
        (buildFtsQueryVariants (sanitizeFtsInput (str "data protection"))).length,
       buildLegalStance
         (fun v => if v = str "data AND protection" then some [1]
           else some ([] : List Nat))
         (str "data protection") =
         (((fun v => if v = str "data AND protection" then some [1]
             else some ([] : List Nat)))
           ((buildFtsQueryVariants
             (sanitizeFtsInput (str "data protection"))).get ⟨k, hk⟩)).getD [] ∧
       buildLegalStance
         (fun v => if v = str "data AND protection" then some [1]
           else some ([] : List Nat))
         (str "data protection") ≠ [] ∧
       ∀ j, ∀ hj : j <
         (buildFtsQueryVariants (sanitizeFtsInput (str "data protection"))).length,
         j < k →
         (((fun v => if v = str "data AND protection" then some [1]
             else some ([] : List Nat)))
           ((buildFtsQueryVariants
             (sanitizeFtsInput (str "data protection"))).get ⟨j, hj⟩)).getD []
           = [])) :=
  claim_C9
    (fun v => if v = str "data AND protection" then some [1]
      else some ([] : List Nat))
    (str "data protection") (by decide) (by decide)

/-! ### Claim C8: `validateCitationTool` (`src/tools/validate-citation.ts`)

The citation parser is three JavaScript regular expressions tried in
order.  We embed them with a continuation-passing backtracking matcher
whose combinators reproduce the engine's greedy/lazy preference order:
`<|>` tries the left (preferred) branch first. -/

/-- JS `\d`. -/
def isDigit (c : Char) : Bool :=
  48 ≤ c.toNat && c.toNat ≤ 57

/-- JS `[A-Za-z]`. -/
def isAsciiLetter (c : Char) : Bool :=
  (65 ≤ c.toNat && c.toNat ≤ 90) || (97 ≤ c.toNat && c.toNat ≤ 122)

/-- JS `\w` (word character): `[A-Za-z0-9_]`. -/
def isWordChar (c : Char) : Bool :=
  isDigit c || isAsciiLetter c || c = '_'

/-- JS line terminators, the characters `.` does not match. -/
def isLineTerm (c : Char) : Bool :=
  c = '\n' || c = '\r' || c.toNat = 0x2028 || c.toNat = 0x2029

/-- `,` or `;` (the `[,;]` class in the citation regexes). -/
def isPunctCS (c : Char) : Bool :=
  c = ',' || c = ';'

/-- Greedy `p*`: consume as many `p`-characters as possible, backtracking
into the continuation `k`. -/
def mStar {R : Type} (p : Char → Bool) : List Char → (List Char → Option R) → Option R
  | [], k => k []
  | c :: cs, k =>
    if p c then (mStar p cs k <|> k (c :: cs)) else k (c :: cs)

/-- Greedy `p+`: at least one `p`-character, then greedy star. -/
def mPlus {R : Type} (p : Char → Bool) (l : List Char) (k : List Char → Option R) :
    Option R :=
  match l with
  | [] => none
  | c :: cs => if p c then mStar p cs k else none

/-- Greedy `p?`: prefer consuming one `p`-character. -/
def mOpt {R : Type} (p : Char → Bool) (l : List Char) (k : List Char → Option R) :
    Option R :=
  match l with
  | [] => k []
  | c :: cs => if p c then (k cs <|> k (c :: cs)) else k (c :: cs)

/-- Case-insensitive literal (the pattern is given in lower case),
implementing the `/i` flag's ASCII folding. -/
def mLitCI {R : Type} : List Char → List Char → (List Char → Option R) → Option R
  | [], l, k => k l
  | p :: ps, l, k =>
    match l with
    | [] => none
    | c :: cs => if asciiLower c = asciiLower p then mLitCI ps cs k else none

/-- Lazy `.*?`: prefer matching nothing; `.` excludes line terminators. -/
def mLazyStarDot {R : Type} : List Char → (List Char → Option R) → Option R
  | [], k => k []
  | c :: cs, k =>
    k (c :: cs) <|> (if isLineTerm c then none else mLazyStarDot cs k)

/-- Lazy `.+?`: one non-line-terminator, then lazy star. -/
def mLazyPlusDot {R : Type} (l : List Char) (k : List Char → Option R) : Option R :=
  match l with
  | [] => none
  | c :: cs => if isLineTerm c then none else mLazyStarDot cs k

/-- The optional `(?:\(\d+\))?` tail of a section reference; greedy, so
the parenthesised branch is preferred. -/
def mParenGroup {R : Type} (l : List Char) (k : List Char → Option R) : Option R :=
  (match l with
   | '(' :: r =>
     mPlus isDigit r (fun r2 =>
       match r2 with
       | ')' :: r3 => k r3
       | _ => none)
   | _ => none) <|> k l

/-- The capture body `\d+[A-Za-z]*(?:\(\d+\))?` shared by all three
citation regexes. -/
def mRefBody {R : Type} (l : List Char) (k : List Char → Option R) : Option R :=
  mPlus isDigit l (fun r1 =>
    mStar isAsciiLetter r1 (fun r2 =>
      mParenGroup r2 k))

/-- Run the sub-matcher `m` and hand its capture (the consumed prefix) to
the continuation along with the rest. -/
def withCap {R : Type} (m : List Char → (List Char → Option R) → Option R)
    (l : List Char) (k : List Char → List Char → Option R) : Option R :=
  m l (fun rest => k (l.take (l.length - rest.length)) rest)

/-- `^Section\s+(\d+[A-Za-z]*(?:\(\d+\))?)\s*[,;]?\s+(.+)$` (`/i`),
returning `(sectionRef, documentRef)`.  `(.+)$` forces the remainder to
be nonempty and free of line terminators. -/
def matchSectionFirst (t : List Char) : Option (List Char × List Char) :=
  mLitCI (str "section") t (fun r0 =>
    mPlus isWS r0 (fun r1 =>
      withCap mRefBody r1 (fun cap r2 =>
        mStar isWS r2 (fun r3 =>
          mOpt isPunctCS r3 (fun r4 =>
            mPlus isWS r4 (fun r5 =>
              if r5.isEmpty then none
              else if r5.all (fun c => !(isLineTerm c)) then some (cap, r5)
              else none))))))

/-- `^(.+?)\s*[,;]?\s+s\.?\s+(\d+[A-Za-z]*(?:\(\d+\))?)$` (`/i`),
returning `(documentRef, sectionRef)`. -/
def matchSectionLast (t : List Char) : Option (List Char × List Char) :=
  withCap mLazyPlusDot t (fun cap1 r1 =>
    mStar isWS r1 (fun r2 =>
      mOpt isPunctCS r2 (fun r3 =>
        mPlus isWS r3 (fun r4 =>
          mLitCI (str "s") r4 (fun r5 =>
            mOpt (fun c => c = '.') r5 (fun r6 =>
              mPlus isWS r6 (fun r7 =>
                withCap mRefBody r7 (fun cap2 r8 =>
                  if r8.isEmpty then some (cap1, cap2) else none))))))))

/-- `^(.+?)\s*[,;]?\s+Section\s+(\d+[A-Za-z]*(?:\(\d+\))?)$` (`/i`),
returning `(documentRef, sectionRef)`. -/
def matchSectionWordLast (t : List Char) : Option (List Char × List Char) :=
  withCap mLazyPlusDot t (fun cap1 r1 =>
    mStar isWS r1 (fun r2 =>
      mOpt isPunctCS r2 (fun r3 =>
        mPlus isWS r3 (fun r4 =>
          mLitCI (str "section") r4 (fun r5 =>
            mPlus isWS r5 (fun r6 =>
              withCap mRefBody r6 (fun cap2 r7 =>
                if r7.isEmpty then some (cap1, cap2) else none)))))))

/-- Result of `parseCitation`. -/
structure ParsedCitation where
  documentRef : List Char
  sectionRef : Option (List Char) := none
  deriving DecidableEq, Repr

/-- `parseCitation` from `src/tools/validate-citation.ts`: trim, then try
the three regexes in order; the plain-document fallback makes the
function total (the `null` branch of the source is unreachable, but the
`Option` mirrors its declared type). -/
def parseCitation (citation : List Char) : Option ParsedCitation :=
  let trimmed := trimList citation
  match matchSectionFirst trimmed with
  | some (sec, docRef) => some ⟨trimList docRef, some sec⟩
  | none =>
    match matchSectionLast trimmed with
    | some (docRef, sec) => some ⟨trimList docRef, some sec⟩
    | none =>
      match matchSectionWordLast trimmed with
      | some (docRef, sec) => some ⟨trimList docRef, some sec⟩
      | none => some ⟨trimmed, none⟩

/-- A `legal_provisions` row, with the columns the provision lookup of
`validateCitationTool` consults. -/
structure Prov where
  document_id : List Char
  provision_ref : List Char
  sectionLabel : Option (List Char) := none
  deriving DecidableEq, Repr

/-- The result record of `validateCitationTool` (optional fields are the
ones the source leaves undefined on some paths). -/
structure VCResult where
  valid : Bool
  citation : List Char
  normalized : Option (List Char) := none
  document_id : Option (List Char) := none
  document_title : Option (List Char) := none
  provision_ref : Option (List Char) := none
  status : Option DocStatus := none
  warnings : List (List Char)
  deriving DecidableEq, Repr

def repealedMsg : List Char :=
  str "WARNING: This statute has been repealed."

def amendedMsg : List Char :=
  str "Note: This statute has been amended. Verify you are referencing the current version."

/-- The status-dependent warnings pushed before provision lookup. -/
def statusWarnings (st : DocStatus) : List (List Char) :=
  if st = DocStatus.repealed then [repealedMsg]
  else if st = DocStatus.amended then [amendedMsg]
  else []

/-- `validateCitationTool`: parse the citation, resolve the document,
fetch its row (`none` models the exception thrown when the row the
resolver named is absent), push status warnings, then check the cited
provision if one was given. -/
def validateCitationTool (docs : List Document) (provs : List Prov)
    (citation : List Char) : Option VCResult :=
  match parseCitation citation with
  | none =>
    some ⟨false, citation, none, none, none, none, none,
      [str "Could not parse citation format"]⟩
  | some parsed =>
    match resolveDocumentId docs parsed.documentRef with
    | none =>
      some ⟨false, citation, none, none, none, none, none,
        [str "Document not found: " ++ '"' :: (parsed.documentRef ++ ['"'])]⟩
    | some docId =>
      match docs.find? (fun d => d.id == docId) with
      | none => none
      | some doc =>
        match parsed.sectionRef with
        | some sec =>
          match provs.find? (fun p => p.document_id == docId &&
            (p.provision_ref == sec || p.provision_ref == 's' :: sec ||
             p.sectionLabel == some sec)) with
          | none =>
            some ⟨false, citation, none, some docId, some doc.title, none, none,
              statusWarnings doc.status ++
                [str "Provision " ++ '"' :: (str "Section " ++ sec ++ ['"']) ++
                  str " not found in " ++ doc.title]⟩
          | some provision =>
            some ⟨true, citation,
              some (str "Section " ++ sec ++ str ", " ++ doc.title),
              some docId, some doc.title, some provision.provision_ref,
              some doc.status, statusWarnings doc.status⟩
        | none =>
          some ⟨true, citation, some doc.title, some docId, some doc.title,
            none, some doc.status, statusWarnings doc.status⟩

lemma statusWarnings_repealed :
    statusWarnings DocStatus.repealed = [repealedMsg] := rfl

lemma statusWarnings_amended :
    statusWarnings DocStatus.amended = [amendedMsg] := by
  simp [statusWarnings]

/-- Claim C8: a citation that parses, resolves to an existing repealed or
amended document, and (when it names a section) whose cited provision
exists, yields a successful validation: `validateCitationTool` returns a
result (no exception) with `valid = true` and a nonempty warnings list,
and for a repealed document the repeal warning is among the warnings. -/
theorem claim_C8 (docs : List Document) (provs : List Prov)
    (citation : List Char) (pr : ParsedCitation) (docId : List Char)
    (doc : Document)
    (hp : parseCitation citation = some pr)
    (hr : resolveDocumentId docs pr.documentRef = some docId)
    (hd : docs.find? (fun d => d.id == docId) = some doc)
    (hs : doc.status = DocStatus.repealed ∨ doc.status = DocStatus.amended)
    (hprov : ∀ sec, pr.sectionRef = some sec →
      (provs.find? (fun p => p.document_id == docId &&
        (p.provision_ref == sec || p.provision_ref == 's' :: sec ||
         p.sectionLabel == some sec))).isSome = true) :
    ∃ res, validateCitationTool docs provs citation = some res ∧
      res.valid = true ∧ res.warnings ≠ [] ∧
      (doc.status = DocStatus.repealed → repealedMsg ∈ res.warnings) := by
  have hwarn : statusWarnings doc.status ≠ [] ∧
      (doc.status = DocStatus.repealed →
        repealedMsg ∈ statusWarnings doc.status) := by
    rcases hs with hs | hs <;> rw [hs]
    · exact ⟨by rw [statusWarnings_repealed]; simp,
        fun _ => by rw [statusWarnings_repealed]; simp⟩
    · refine ⟨by rw [statusWarnings_amended]; simp, fun hcon => ?_⟩
      exact absurd hcon (by simp)
  cases hsec : pr.sectionRef with
  | none =>
    refine ⟨⟨true, citation, some doc.title, some docId, some doc.title,
      none, some doc.status, statusWarnings doc.status⟩, ?_, rfl,
      hwarn.1, hwarn.2⟩
    simp only [validateCitationTool, hp, hr, hd, hsec]
  | some sec =>
    rcases Option.isSome_iff_exists.mp (hprov sec hsec) with ⟨p, hpf⟩
    refine ⟨⟨true, citation,
      some (str "Section " ++ sec ++ str ", " ++ doc.title),
      some docId, some doc.title, some p.provision_ref,
      some doc.status, statusWarnings doc.status⟩, ?_, rfl,
      hwarn.1, hwarn.2⟩
    simp only [validateCitationTool, hp, hr, hd, hsec, hpf]

/-- Witness for C8: `"Section 21, Constitution 2013"` against a repealed
`constitution-2013` whose provision table has section 21. -/
theorem claim_C8_witness :
    ∃ res, validateCitationTool
        [Document.mk (str "constitution-2013") (str "Constitution 2013")
          none none DocStatus.repealed]
        [Prov.mk (str "constitution-2013") (str "dieu21") (some (str "21"))]
        (str "Section 21, Constitution 2013") = some res ∧
      res.valid = true ∧ res.warnings ≠ [] ∧
      (DocStatus.repealed = DocStatus.repealed → repealedMsg ∈ res.warnings) :=
  claim_C8
    [Document.mk (str "constitution-2013") (str "Constitution 2013")
      none none DocStatus.repealed]
    [Prov.mk (str "constitution-2013") (str "dieu21") (some (str "21"))]
    (str "Section 21, Constitution 2013")
    ⟨str "Constitution 2013", some (str "21")⟩
    (str "constitution-2013")
    (Document.mk (str "constitution-2013") (str "Constitution 2013")
      none none DocStatus.repealed)
    (by decide) (by decide) (by decide) (Or.inl rfl)
    (by
      intro sec h
      have h2 : some (str "21") = some sec := h
      injection h2 with h3
      rw [← h3]
      decide)

/-! ### Claims C6 and C7: `extractEuReferences` (`src/scripts/build-db.ts`)

The three EU-citation regexes are embedded with the same
continuation-passing matcher; a fuelled scanner reproduces
`pattern.exec` under the `g` flag (leftmost match at or after the end of
the previous one). -/

/-- No word character follows: the trailing `\b` after a word character. -/
def noWordAfter : List Char → Bool
  | [] => true
  | c :: _ => !(isWordChar c)

/-- Exactly `n` `p`-characters; returns the rest. -/
def mRep (p : Char → Bool) : Nat → List Char → Option (List Char)
  | 0, l => some l
  | n + 1, l =>
    match l with
    | [] => none
    | c :: cs => if p c then mRep p n cs else none

/-- Greedy counted repetition `p{lo,hi}` with backtracking: try `hi`
characters first, down to `lo`; the capture is passed to `k`. -/
def mRangeAux {R : Type} (p : Char → Bool) (lo : Nat) :
    Nat → List Char → (List Char → List Char → Option R) → Option R
  | 0, l, k => if lo = 0 then k [] l else none
  | n + 1, l, k =>
    (if n + 1 < lo then none
     else
       match mRep p (n + 1) l with
       | some rest => k (l.take (n + 1)) rest
       | none => none) <|> mRangeAux p lo n l k

def mRange {R : Type} (p : Char → Bool) (lo hi : Nat) (l : List Char)
    (k : List Char → List Char → Option R) : Option R :=
  mRangeAux p lo hi l k

/-- Ordered case-insensitive alternation of literals (given lower-case);
the capture passed to `k` keeps the input's original casing. -/
def mAltCI {R : Type} : List (List Char) → List Char → (List Char → List Char → Option R) → Option R
  | [], _, _ => none
  | w :: ws, l, k =>
    (mLitCI w l (fun rest => k (l.take w.length) rest)) <|> mAltCI ws l k

/-- The non-capturing `(?:No\.?\s*)` group body. -/
def mNoDot {R : Type} (l : List Char) (k : List Char → Option R) : Option R :=
  mLitCI (str "no") l (fun r1 =>
    mOpt (fun c => c = '.') r1 (fun r2 =>
      mStar isWS r2 k))

/-- Greedy optional sub-matcher (`(?:...)?`): prefer the present branch. -/
def mOptM {R : Type} (m : List Char → (List Char → Option R) → Option R)
    (l : List Char) (k : List Char → Option R) : Option R :=
  m l k <|> k l

/-- Group data of one EU-citation match: lower-cased type, raw community
capture (as written, `none` for the pattern without one), raw year and
number digit strings, followed by the unconsumed rest of the text. -/
def EuGroups : Type :=
  (List Char × Option (List Char) × List Char × List Char) × List Char

/-- `\b(Regulation|Directive)\s*\((EU|EC|EEC|Euratom)\)\s*(?:No\.?\s*)?(\d{2,4})\/(\d{1,4})\b`
(`/gi`), matched at the head of `l` (the leading `\b` is checked by the
scanner). -/
def tryMatchP1 (l : List Char) : Option EuGroups :=
  mAltCI [str "regulation", str "directive"] l (fun ty r1 =>
    mStar isWS r1 (fun r2 =>
      match r2 with
      | '(' :: r3 =>
        mAltCI [str "eu", str "ec", str "eec", str "euratom"] r3 (fun comm r4 =>
          match r4 with
          | ')' :: r5 =>
            mStar isWS r5 (fun r6 =>
              mOptM mNoDot r6 (fun r7 =>
                mRange isDigit 2 4 r7 (fun yr r8 =>
                  match r8 with
                  | '/' :: r9 =>
                    mRange isDigit 1 4 r9 (fun num r10 =>
                      if noWordAfter r10 then
                        some ((lowerList ty, some comm, yr, num), r10)
                      else none)
                  | _ => none)))
          | _ => none)
      | _ => none))

/-- `\b(Regulation|Directive)\s*(?:No\.?\s*)?(\d{2,4})\/(\d{1,4})\/(EU|EC|EEC|Euratom)\b`
(`/gi`). -/
def tryMatchP2 (l : List Char) : Option EuGroups :=
  mAltCI [str "regulation", str "directive"] l (fun ty r1 =>
    mStar isWS r1 (fun r2 =>
      mOptM mNoDot r2 (fun r3 =>
        mRange isDigit 2 4 r3 (fun yr r4 =>
          match r4 with
          | '/' :: r5 =>
            mRange isDigit 1 4 r5 (fun num r6 =>
              match r6 with
              | '/' :: r7 =>
                mAltCI [str "eu", str "ec", str "eec", str "euratom"] r7
                  (fun comm r8 =>
                    if noWordAfter r8 then
                      some ((lowerList ty, some comm, yr, num), r8)
                    else none)
              | _ => none)
          | _ => none))))

/-- `\b(Regulation|Directive)\s*(?:No\.?\s*)?(\d{2,4})\/(\d{1,4})\b` (`/gi`). -/
def tryMatchP3 (l : List Char) : Option EuGroups :=
  mAltCI [str "regulation", str "directive"] l (fun ty r1 =>
    mStar isWS r1 (fun r2 =>
      mOptM mNoDot r2 (fun r3 =>
        mRange isDigit 2 4 r3 (fun yr r4 =>
          match r4 with
          | '/' :: r5 =>
            mRange isDigit 1 4 r5 (fun num r6 =>
              if noWordAfter r6 then
                some ((lowerList ty, none, yr, num), r6)
              else none)
          | _ => none))))

/-- One raw match of a pattern: groups, match position (`match.index`)
and the full matched text (`match[0]`). -/
structure RawEuMatch where
  typeLower : List Char
  community : Option (List Char)
  rawYear : List Char
  rawNumber : List Char
  index : Nat
  full : List Char
  deriving DecidableEq, Repr

/-- `while ((match = pattern.exec(text)) !== null)` under `/g`: emit the
leftmost match starting at or after the previous match's end; the
leading `\b` holds when the previous character is not a word character
(every pattern starts with a letter).  Fuelled; each step consumes at
least one character, so `text.length + 1` fuel suffices. -/
def scanEu (tryM : List Char → Option EuGroups) :
    Nat → Bool → Nat → List Char → List RawEuMatch
  | 0, _, _, _ => []
  | fuel + 1, prevWord, pos, l =>
    match l with
    | [] => []
    | c :: cs =>
      match (if prevWord then none else tryM (c :: cs)) with
      | some ((ty, comm, yr, num), rest) =>
        let len := (c :: cs).length - rest.length
        let full := (c :: cs).take len
        ⟨ty, comm, yr, num, pos, full⟩ ::
          scanEu tryM fuel (isWordChar (full.getLastD c)) (pos + len) rest
      | none => scanEu tryM fuel (isWordChar c) (pos + 1) cs

/-- `Number.parseInt` on a digit string. -/
def digitsToNat (l : List Char) : Nat :=
  l.foldl (fun a c => 10 * a + (c.toNat - 48)) 0

/-- The two-digit-year pivot:
`rawYear.length === 2 ? (parsedYear >= 50 ? 1900 + parsedYear : 2000 + parsedYear) : parsedYear`. -/
def euYear (rawYear : List Char) : Nat :=
  if rawYear.length = 2 then
    (if digitsToNat rawYear ≥ 50 then 1900 + digitsToNat rawYear
     else 2000 + digitsToNat rawYear)
  else digitsToNat rawYear

/-- Decimal rendering of a natural (JS template interpolation of a
number). -/
def natToCharsAux : Nat → Nat → List Char → List Char
  | 0, _, acc => acc
  | fuel + 1, n, acc =>
    if n < 10 then Char.ofNat (48 + n) :: acc
    else natToCharsAux fuel (n / 10) (Char.ofNat (48 + n % 10) :: acc)

def natToChars (n : Nat) : List Char :=
  natToCharsAux (n + 1) n []

/-- The synthesized id `` `${type}:${year}/${number}` ``. -/
def mkEuDocId (ty : List Char) (year number : Nat) : List Char :=
  ty ++ ':' :: (natToChars year ++ '/' :: natToChars number)

def asciiUpper (c : Char) : Char :=
  if c.toNat ≥ 97 ∧ c.toNat ≤ 122 then Char.ofNat (c.toNat - 32) else c

def upperList (l : List Char) : List Char :=
  l.map asciiUpper

/-- `text.slice(Math.max(0, index - 120), Math.min(text.length, index + len + 120))`
(`Nat` subtraction already truncates at 0). -/
def sliceAround (text : List Char) (index len : Nat) : List Char :=
  (text.take (min text.length (index + len + 120))).drop (index - 120)

/-- `\bArticle\s+(\d+[A-Za-z]?(?:\(\d+\))?)` matched at the head of `l`. -/
def tryArticleAt (l : List Char) : Option (List Char) :=
  mLitCI (str "article") l (fun r1 =>
    mPlus isWS r1 (fun r2 =>
      withCap (fun l2 k =>
        mPlus isDigit l2 (fun r3 =>
          mOpt isAsciiLetter r3 (fun r4 =>
            mParenGroup r4 k))) r2 (fun cap _ => some cap)))

/-- `referenceContext.match(/\bArticle\s+.../i)?.[1] ?? null`: the first
match's capture. -/
def findArticleRef : Nat → Bool → List Char → Option (List Char)
  | 0, _, _ => none
  | fuel + 1, prevWord, l =>
    match l with
    | [] => none
    | c :: cs =>
      match (if prevWord then none else tryArticleAt (c :: cs)) with
      | some cap => some cap
      | none => findArticleRef fuel (isWordChar c) cs

/-- `/\b(implement|align|transpos|equivalent)\b/i.test(referenceContext)`. -/
def tryKwAt (l : List Char) : Option Unit :=
  mAltCI [str "implement", str "align", str "transpos", str "equivalent"] l
    (fun _ r => if noWordAfter r then some () else none)

def testImplementsKw : Nat → Bool → List Char → Bool
  | 0, _, _ => false
  | fuel + 1, prevWord, l =>
    match l with
    | [] => false
    | c :: cs =>
      match (if prevWord then none else tryKwAt (c :: cs)) with
      | some _ => true
      | none => testImplementsKw fuel (isWordChar c) cs

/-- One element of the list `extractEuReferences` returns. -/
structure EuRef where
  type : List Char
  community : List Char
  year : Nat
  number : Nat
  euDocumentId : List Char
  euArticle : Option (List Char)
  fullCitation : List Char
  referenceContext : List Char
  referenceType : List Char
  deriving DecidableEq, Repr

/-- The per-match body of the extraction loop: skip non-positive year or
number, compute community (default `'EU'`), synthesized id, normalized
±120-character context, detected article, and reference type. -/
def processEuMatch (text : List Char) (m : RawEuMatch) : Option EuRef :=
  let year := euYear m.rawYear
  let number := digitsToNat m.rawNumber
  if year = 0 ∨ number = 0 then none
  else
    let community := (m.community.map upperList).getD (str "EU")
    let ctx := normalizeWhitespace (sliceAround text m.index m.full.length)
    let euArticle := findArticleRef (ctx.length + 1) false ctx
    let refType := if testImplementsKw (ctx.length + 1) false ctx then
        str "implements"
      else str "references"
    some ⟨m.typeLower, community, year, number,
      mkEuDocId m.typeLower year number, euArticle, m.full, ctx, refType⟩

/-- `` `${euDocumentId}:${euArticle ?? ''}` ``. -/
def dedupeKey (r : EuRef) : List Char :=
  r.euDocumentId ++ ':' :: (r.euArticle.getD [])

/-- The extraction loop with its `seen` set: a match whose dedupe key was
already seen is skipped (`continue` precedes `seen.add`). -/
def euLoop (text : List Char) : List RawEuMatch → List (List Char) → List EuRef
  | [], _ => []
  | m :: ms, seen =>
    match processEuMatch text m with
    | none => euLoop text ms seen
    | some r =>
      if dedupeKey r ∈ seen then euLoop text ms seen
      else r :: euLoop text ms (dedupeKey r :: seen)

/-- `extractEuReferences`: empty or whitespace-only text yields nothing;
otherwise the three patterns are scanned in order and their matches fed
through the loop with a single shared `seen` set. -/
def extractEuReferences (text : List Char) : List EuRef :=
  if trimList text = [] then []
  else
    euLoop text
      (scanEu tryMatchP1 (text.length + 1) false 0 text ++
       scanEu tryMatchP2 (text.length + 1) false 0 text ++
       scanEu tryMatchP3 (text.length + 1) false 0 text) []

/-- The loop's `seen` set makes the emitted dedupe keys distinct, and
every emitted key avoids the incoming `seen` set. -/
lemma euLoop_keys (text : List Char) (ms : List RawEuMatch) :
    ∀ seen : List (List Char),
      ((euLoop text ms seen).map dedupeKey).Nodup ∧
      ∀ k ∈ (euLoop text ms seen).map dedupeKey, k ∉ seen := by
  induction ms with
  | nil => intro seen; simp [euLoop]
  | cons m ms ih =>
    intro seen
    cases hp : processEuMatch text m with
    | none =>
      have hstep : euLoop text (m :: ms) seen = euLoop text ms seen := by
        simp only [euLoop, hp]
      rw [hstep]; exact ih seen
    | some r =>
      by_cases hmem : dedupeKey r ∈ seen
      · have hstep : euLoop text (m :: ms) seen = euLoop text ms seen := by
          simp only [euLoop, hp]
          rw [if_pos hmem]
        rw [hstep]; exact ih seen
      · have hstep : euLoop text (m :: ms) seen =
            r :: euLoop text ms (dedupeKey r :: seen) := by
          simp only [euLoop, hp]
          rw [if_neg hmem]
        rw [hstep]
        obtain ⟨hnd, havoid⟩ := ih (dedupeKey r :: seen)
        refine ⟨?_, ?_⟩
        · rw [List.map_cons, List.nodup_cons]
          exact ⟨fun hcon => (havoid _ hcon) (List.mem_cons_self _ _), hnd⟩
        · intro k hk
          rw [List.map_cons, List.mem_cons] at hk
          rcases hk with hk | hk
          · rw [hk]; exact hmem
          · intro hks
            exact (havoid k hk) (List.mem_cons_of_mem _ hks)

/-- Every emitted reference comes from `processEuMatch` on one of the
scanned matches. -/
lemma euLoop_mem_process (text : List Char) (ms : List RawEuMatch) :
    ∀ (seen : List (List Char)) (r : EuRef), r ∈ euLoop text ms seen →
      ∃ m ∈ ms, processEuMatch text m = some r := by
  induction ms with
  | nil => intro seen r hr; simp [euLoop] at hr
  | cons m ms ih =>
    intro seen r hr
    cases hp : processEuMatch text m with
    | none =>
      rw [show euLoop text (m :: ms) seen = euLoop text ms seen by
        simp only [euLoop, hp]] at hr
      obtain ⟨m', hm', hpm'⟩ := ih seen r hr
      exact ⟨m', List.mem_cons_of_mem _ hm', hpm'⟩
    | some r' =>
      by_cases hmem : dedupeKey r' ∈ seen
      · rw [show euLoop text (m :: ms) seen = euLoop text ms seen by
          simp only [euLoop, hp]; rw [if_pos hmem]] at hr
        obtain ⟨m', hm', hpm'⟩ := ih seen r hr
        exact ⟨m', List.mem_cons_of_mem _ hm', hpm'⟩
      · rw [show euLoop text (m :: ms) seen =
            r' :: euLoop text ms (dedupeKey r' :: seen) by
          simp only [euLoop, hp]; rw [if_neg hmem]] at hr
        rcases List.mem_cons.mp hr with hr | hr
        · exact ⟨m, List.mem_cons_self _ _, by rw [hp, hr]⟩
        · obtain ⟨m', hm', hpm'⟩ := ih _ r hr
          exact ⟨m', List.mem_cons_of_mem _ hm', hpm'⟩

/-- A produced reference's synthesized id is built from its own type,
year and number. -/
lemma processEuMatch_id (text : List Char) (m : RawEuMatch) (r : EuRef)
    (h : processEuMatch text m = some r) :
    r.euDocumentId =
      r.type ++ ':' :: (natToChars r.year ++ '/' :: natToChars r.number) := by
  simp only [processEuMatch] at h
  by_cases hc : euYear m.rawYear = 0 ∨ digitsToNat m.rawNumber = 0
  · rw [if_pos hc] at h
    exact absurd h (by simp)
  · rw [if_neg hc] at h
    injection h with h
    rw [← h]
    rfl

/-- Claim C7: within a single text scan the returned references have
pairwise-distinct dedupe keys `euDocumentId + ":" + (euArticle or empty)`. -/
theorem claim_C7 (text : List Char) :
    ((extractEuReferences text).map dedupeKey).Nodup := by
  rw [extractEuReferences]
  by_cases h : trimList text = []
  · rw [if_pos h]; simp
  · rw [if_neg h]
    exact (euLoop_keys text _ []).1

/-- Claim C6: a four-digit year is taken as written, a two-digit year `y`
becomes `1900 + y` when `y ≥ 50` and `2000 + y` otherwise, every
returned reference's id is `type:year/number`, and text containing
`Regulation (EU) No 2016/679` yields a reference with id
`regulation:2016/679`. -/
theorem claim_C6 :
    (∀ ds : List Char, ds.length = 4 → euYear ds = digitsToNat ds) ∧
    (∀ ds : List Char, ds.length = 2 →
      euYear ds =
        (if digitsToNat ds ≥ 50 then 1900 + digitsToNat ds
         else 2000 + digitsToNat ds)) ∧
    (∀ text : List Char, ∀ r ∈ extractEuReferences text,
      r.euDocumentId =
        r.type ++ ':' :: (natToChars r.year ++ '/' :: natToChars r.number)) ∧
    (∃ r ∈ extractEuReferences (str "Implements Regulation (EU) No 2016/679."),
      r.euDocumentId = str "regulation:2016/679") := by
  refine ⟨?_, ?_, ?_, ?_⟩
  · intro ds h
    rw [euYear, if_neg (by omega)]
  · intro ds h
    rw [euYear, if_pos h]
  · intro text r hr
    rw [extractEuReferences] at hr
    by_cases h : trimList text = []
    · rw [if_pos h] at hr
      exact absurd hr (by simp)
    · rw [if_neg h] at hr
      obtain ⟨m, _, hpm⟩ := euLoop_mem_process text _ [] r hr
      exact processEuMatch_id text m r hpm
  · decide

/-- Witness for C6: the year rules at `2016` and `79`, and the id shape
for the reference extracted from the example text. -/
theorem claim_C6_witness :
    euYear (str "2016") = digitsToNat (str "2016") ∧
    euYear (str "79") =
      (if digitsToNat (str "79") ≥ 50 then 1900 + digitsToNat (str "79")
       else 2000 + digitsToNat (str "79")) ∧
    ∃ r ∈ extractEuReferences (str "Implements Regulation (EU) No 2016/679."),
      r.euDocumentId =
        r.type ++ ':' :: (natToChars r.year ++ '/' :: natToChars r.number) :=
  ⟨claim_C6.1 (str "2016") rfl,
   claim_C6.2.1 (str "79") rfl,
   ⟨EuRef.mk (str "regulation") (str "EU") 2016 679
      (str "regulation:2016/679") none
      (str "Regulation (EU) No 2016/679")
      (str "Implements Regulation (EU) No 2016/679.")
      (str "references"),
    by decide,
    claim_C6.2.2.1 (str "Implements Regulation (EU) No 2016/679.")
      (EuRef.mk (str "regulation") (str "EU") 2016 679
        (str "regulation:2016/679") none
        (str "Regulation (EU) No 2016/679")
        (str "Implements Regulation (EU) No 2016/679.")
        (str "references"))
      (by decide)⟩⟩

end VietLaw
